import Mathlib

set_option maxRecDepth 8000

/-!
Shallow embedding of `src/mavenPush.py`, the release-publishing script of the
repository, together with theorems settling the specification claims about it.

The filesystem is modelled as a record of existing directory paths and an
association list from file paths to contents; paths are the exact strings
computed by the script (double slashes included).  External collaborators of
the script (the `ant` build tool, the `sha1sum` utility's digest function,
`xml.dom.minidom`'s pretty-printer, the user database consulted by
`os.path.expanduser`, and the clock read by `time.time()`) are supplied by an
environment record, since their code is not part of this repository.
-/

namespace MavenPush

/-- Keep the first occurrence of each element of a list, dropping later
duplicates; the accumulator holds the names already seen.  Used to model the
fact that a directory listing yields each entry name once. -/
def dedupAcc : List String → List String → List String
  | _, [] => []
  | seen, a :: l => if a ∈ seen then dedupAcc seen l else a :: dedupAcc (a :: seen) l

/-- The maximal run of non-slash characters at the end of a path. -/
def tailRun (cs : List Char) : List Char :=
  (cs.reverse.takeWhile (fun c => !(c == '/'))).reverse

/-- Remove the trailing slashes of a path. -/
def stripSlashes (cs : List Char) : List Char :=
  (cs.reverse.dropWhile (fun c => c == '/')).reverse

/-- Model of POSIX `os.path.split`: the tail is the maximal run of non-slash
characters at the end; the head is what precedes it, stripped of trailing
slashes unless that would leave it empty while it was made of slashes only. -/
def ospSplit (p : String) : String × String :=
  let cs := p.data
  let tl := tailRun cs
  let hdAll := cs.take (cs.length - tl.length)
  let hd := stripSlashes hdAll
  (⟨if hd.isEmpty then hdAll else hd⟩, ⟨tl⟩)

/-- The string to which a child name is appended when forming a path under
directory `p`: the directory itself if it already ends in a slash, otherwise
the directory followed by a slash. -/
def dirPref (p : String) : String :=
  if p.data.getLast? = some '/' then p else p ++ "/"

/-- Model of POSIX `os.path.join` for the two-argument form used by the
script. -/
def ospJoin (a b : String) : String :=
  if b.data.head? = some '/' then b
  else if a = "" then b
  else dirPref a ++ b

/-- Model of a filesystem: existing directory paths, and file paths with their
contents. -/
structure FS where
  dirs  : List String
  files : List (String × String)
deriving DecidableEq, Repr

/-- Read a file's contents. -/
def FS.read (fs : FS) (p : String) : Option String :=
  List.lookup p fs.files

/-- Overwrite-in-place update of the file association list: an existing entry
for the path is replaced where it stands, a new path is appended at the end. -/
def setFile : List (String × String) → String → String → List (String × String)
  | [], p, c => [(p, c)]
  | (q, d) :: l, p, c => if q = p then (p, c) :: l else (q, d) :: setFile l p c

/-- Model of `open(path, "w")` followed by `write(content)` and `close()`. -/
def FS.write (fs : FS) (p c : String) : FS :=
  { fs with files := setFile fs.files p c }

/-- Model of `os.path.exists`: true on directories, on files, and on the
filesystem root written as one or more slashes. -/
def pathExists (fs : FS) (p : String) : Bool :=
  fs.dirs.contains p || (fs.read p).isSome ||
    (!p.data.isEmpty && p.data.all (fun c => c == '/'))

/-- Model of `os.path.isdir`. -/
def isdir (fs : FS) (p : String) : Bool :=
  fs.dirs.contains p || (!p.data.isEmpty && p.data.all (fun c => c == '/'))

/-- If `q` denotes a direct child of directory `p`, return the child's name. -/
def childName (p q : String) : Option String :=
  if (dirPref p).data.isPrefixOf q.data then
    if (q.data.drop (dirPref p).data.length).isEmpty
        || (q.data.drop (dirPref p).data.length).contains '/' then none
    else some ⟨q.data.drop (dirPref p).data.length⟩
  else none

/-- Model of `os.listdir`: the names of the direct children of `p`, each once.
A real directory listing yields an unspecified order; the model fixes the
deterministic order in which the children appear in the state (directories
first, then file paths). -/
def listdir (fs : FS) (p : String) : List String :=
  dedupAcc [] ((fs.dirs ++ fs.files.map Prod.fst).filterMap (childName p))

/-- Existence test used for the parent in `mkdir`: the empty path (relative
current directory), the root, and recorded directories count as directories. -/
def dirExists (fs : FS) (p : String) : Bool :=
  p.data.isEmpty || p.data.all (fun c => c == '/') || fs.dirs.contains p

/-- Model of `os.mkdir`: fails if the path already exists or if its parent is
not an existing directory. -/
def mkdir (fs : FS) (p : String) : Except (String × FS) FS :=
  if pathExists fs p then .error ("mkdir: file exists: " ++ p, fs)
  else if dirExists fs (ospSplit p).1 then .ok { fs with dirs := p :: fs.dirs }
  else .error ("mkdir: no such file or directory: " ++ p, fs)

/-- Fuel-driven model of `os.makedirs`: split off the last component
(re-splitting once when the path ends in a slash), recursively create the head
when it is missing, then create the path itself.  The fuel only bounds the
recursion depth; `makedirs` supplies enough of it. -/
def makedirsAux : Nat → FS → String → Except (String × FS) FS
  | 0, fs, p => .error ("makedirs: out of fuel: " ++ p, fs)
  | fuel + 1, fs, name =>
    let s1 := ospSplit name
    let s2 := if s1.2 = "" then ospSplit s1.1 else s1
    if s2.1 ≠ "" ∧ s2.2 ≠ "" ∧ pathExists fs s2.1 = false then
      match makedirsAux fuel fs s2.1 with
      | .error e => .error e
      | .ok fs' => if s2.2 = "." then .ok fs' else mkdir fs' name
    else mkdir fs name

/-- Model of `os.makedirs(path)`. -/
def makedirs (fs : FS) (p : String) : Except (String × FS) FS :=
  makedirsAux (p.data.length + 1) fs p

/-- Environment of external collaborators: the invoking user's home directory
and the user database (for `os.path.expanduser`), the captured standard output
of the two `ant` invocations (standard error is not piped by the script, so
`communicate()` returns `None` for it), the digest function realised by the
external `sha1sum` utility, the `xml.dom.minidom` parse-and-pretty-print
composition, and the clock value `int(time.time() * 1000)`. -/
structure Env where
  home : String
  userHome : String → Option String
  antCleanStdout : String
  antAlljarsStdout : String
  sha1hex : String → String
  pretty : String → String
  nowMs : Nat

/-- Model of POSIX `os.path.expanduser`: expand a leading `~` or `~user` to
the corresponding home directory; any other path is returned unchanged. -/
def expanduser (env : Env) (p : String) : String :=
  if p.data.head? = some '~' then
    let i := match (p.data.drop 1).findIdx? (fun c => c == '/') with
      | some j => j + 1
      | none => p.data.length
    let userhome? : Option String :=
      if i = 1 then some env.home else env.userHome ⟨(p.data.drop 1).take (i - 1)⟩
    match userhome? with
    | none => p
    | some h =>
      let res : List Char := h.data ++ p.data.drop i
      if res.isEmpty then "/" else ⟨res⟩
  else p

/-- Substring test modelling Python's `str.find(pat) >= 0`. -/
def strContains (s pat : String) : Bool :=
  s.data.tails.any (fun t => pat.data.isPrefixOf t)

/-- Split a character list at every occurrence of the separator, keeping
empty pieces; the result is never empty. -/
def pySplitCh (sep : Char) : List Char → List (List Char)
  | [] => [[]]
  | c :: rest =>
    if c == sep then [] :: pySplitCh sep rest
    else match pySplitCh sep rest with
      | [] => [[c]]
      | h :: t => (c :: h) :: t

/-- Model of Python `str.split(sep)` for a one-character separator: split at
every occurrence, keeping empty pieces. -/
def pySplit (s : String) (sep : Char) : List String :=
  (pySplitCh sep s.data).map (fun l => ⟨l⟩)

/-- Fuel-driven scan of Python `str.replace`: at each position, if the pattern
starts here, emit the replacement and continue after the pattern (the
replacement is not rescanned); otherwise keep the character.  The fuel only
bounds the recursion; `pyReplace` supplies enough of it. -/
def pyReplaceAux (old new : List Char) : Nat → List Char → List Char
  | _, [] => []
  | 0, s => s
  | fuel + 1, c :: s =>
    if old.isPrefixOf (c :: s) then new ++ pyReplaceAux old new fuel ((c :: s).drop old.length)
    else c :: pyReplaceAux old new fuel s

/-- Model of Python `str.replace(old, new)`.  The script only calls it with
the fixed non-empty token `"$VERSION"`; for an empty pattern the model returns
the string unchanged. -/
def pyReplace (s old new : String) : String :=
  if old.data.isEmpty then s else ⟨pyReplaceAux old.data new.data s.data.length s.data⟩

/-- Model of the captured standard output of `sha1sum path`: the digest, two
spaces, the file name, and a newline; an empty capture when the file is
missing (`sha1sum` then writes only to standard error). -/
def sha1sumStdout (env : Env) (fs : FS) (p : String) : String :=
  match fs.read p with
  | some c => env.sha1hex c ++ "  " ++ p ++ "\n"
  | none => ""

/-- Model of `build_metadata_xml(path, artifactid)` up to (and not including)
the final `parseString`/`toprettyxml` round trip, which the caller applies
through `Env.pretty`: the XML text assembled by string concatenation. -/
def build_metadata_xml (env : Env) (fs : FS) (path artifactid : String) : String :=
  let groupid := (ospSplit path).2
  let xml := "<metadata>"
  let xml := xml ++ "<groupId>org." ++ groupid ++ "</groupId>"
  let xml := xml ++ "<artifactId>" ++ artifactid ++ "</artifactId>"
  let xml := xml ++ "<versioning><versions>"
  let entries := listdir fs path
  let xml := entries.foldl (fun x entry =>
    if isdir fs (ospJoin path entry) then x ++ "<version>" ++ entry ++ "</version>" else x) xml
  let xml := xml ++ "</versions>"
  let xml := xml ++ "<lastUpdated>" ++ toString env.nowMs ++ "</lastUpdated>"
  xml ++ "</versioning></metadata>"

/-- The version entries of the generated metadata document: the listed entry
names that denote directories, in listing order. -/
def metadataVersions (fs : FS) (path : String) : List String :=
  (listdir fs path).filter (fun e => isdir fs (ospJoin path e))

/-- Concatenation of the `<version>` elements of the metadata document. -/
def versionTags : List String → String
  | [] => ""
  | e :: l => "<version>" ++ e ++ "</version>" ++ versionTags l

/-- The computed version directory `root + pkgName + longName + "/" + version`. -/
def versionDir (root pkgName longName version : String) : String :=
  root ++ pkgName ++ longName ++ "/" ++ version

/-- The per-artifact file-name stem `longName + "-" + version`. -/
def fileStem (longName version : String) : String :=
  longName ++ "-" ++ version

/-- The guarded directory-creation step of `go`: `os.makedirs(dir)` unless the
path already exists. -/
def ensureDir (fs : FS) (dir : String) : Except (String × FS) FS :=
  if pathExists fs dir then .ok fs else makedirs fs dir

/-- Model of `shutil.copy2(src, dst)`: fails when the source file is missing,
otherwise writes the source bytes at the destination. -/
def copy2 (fs : FS) (src dst : String) : Except (String × FS) FS :=
  match fs.read src with
  | none => .error ("copy2: no such file: " ++ src, fs)
  | some c => .ok (fs.write dst c)

/-- Model of `open(path, "r").read()`. -/
def readFileE (fs : FS) (p : String) : Except (String × FS) String :=
  match fs.read p with
  | none => .error ("open: no such file: " ++ p, fs)
  | some c => .ok c

/-- The artifact-flavor copy loop `for x in ["", "-sources", "-javadoc"]`. -/
def copyFlavors (fs : FS) (shortName fileRoot : String) :
    List String → Except (String × FS) FS
  | [] => .ok fs
  | x :: xs =>
    match copy2 fs (shortName ++ x ++ ".jar") (fileRoot ++ x ++ ".jar") with
    | .error e => .error e
    | .ok fs' => copyFlavors fs' shortName fileRoot xs

/-- The flavor suffixes of the copy loop. -/
def flavors : List String := ["", "-sources", "-javadoc"]

/-- The destination path stem `fileRoot = dir + "/" + longName + "-" + version`
computed by `go`. -/
def fileRootOf (root pkgName longName version : String) : String :=
  versionDir root pkgName longName version ++ "/" ++ fileStem longName version

/-- The infallible tail of `go` after the template has been read: write the
rendered descriptor, the parsed `sha1sum` digest, and the regenerated
metadata document. -/
def goWrites (env : Env) (root version pkgName longName pomT : String)
    (fs : FS) : FS :=
  let fileRoot := fileRootOf root pkgName longName version
  let pom := pyReplace pomT "$VERSION" version
  let fs := fs.write (fileRoot ++ ".pom") pom
  let shaOut := sha1sumStdout env fs (fileRoot ++ ".jar")
  let sha1 := (pySplit shaOut ' ').headD ""
  let fs := fs.write (fileRoot ++ ".jar.sha1") sha1
  let parent := (ospSplit (versionDir root pkgName longName version)).1
  fs.write (ospJoin parent "maven-metadata.xml")
    (env.pretty (build_metadata_xml env fs parent longName))

/-- Model of `go(pkgName, shortName, longName)`.  Errors carry the filesystem
state at the moment of failure, modelling an uncaught Python exception that
leaves earlier writes in place. -/
def go (env : Env) (root version pkgName shortName longName : String) (fs : FS) :
    Except (String × FS) FS :=
  match ensureDir fs (versionDir root pkgName longName version) with
  | .error e => .error e
  | .ok fs =>
    match copyFlavors fs shortName (fileRootOf root pkgName longName version) flavors with
    | .error e => .error e
    | .ok fs =>
      match readFileE fs ("maven-" ++ shortName ++ ".xml") with
      | .error e => .error e
      | .ok pomT => .ok (goWrites env root version pkgName longName pomT fs)

/-- Accumulated seen set after scanning a list. -/
def seenAfter (seen : List String) (l : List String) : List String :=
  l.foldl (fun s a => if a ∈ s then s else a :: s) seen

/-- The filesystem state carried by a result, successful or not. -/
def errState : Except (String × FS) FS → FS
  | .ok fs => fs
  | .error (_, fs) => fs

/-- The usage message printed when the script is invoked without arguments. -/
def usageLines : List String :=
  ["Usage: mavenPush.py VERSION [PUBDIR]",
   "VERSION - version you want to publish",
   "PUBDIR - directory to publish to. default = /ebs/maven/"]

/-- Observable outcome of one run of the script. -/
structure Outcome where
  exitCode : Nat
  printed : List String
  fs : FS
  buildInvoked : Bool
deriving DecidableEq, Repr

/-- Rendering applied by Python's `print` to the second component of the
`communicate()` pair, which is `None` because standard error is not piped. -/
def pyRepr : Option String → String
  | none => "None"
  | some s => s

/-- The version string `sys.argv[1]`. -/
def versionOf (argv : List String) : String := argv.getD 1 ""

/-- The destination root: `os.path.expanduser(sys.argv[2])` when a second
argument is given, the fixed default `/ebs/maven/` otherwise. -/
def rootOf (env : Env) (argv : List String) : String :=
  if argv.length > 2 then expanduser env (argv.getD 2 "") else "/ebs/maven/"

/-- Model of the whole script: argument check, build invocation and success
test, then `go` for `mongo-java-driver` and for `bson`, in that order.  An
uncaught exception gives exit code 1 and leaves the writes made so far. -/
def runMain (env : Env) (argv : List String) (fs : FS) : Outcome :=
  if argv.length = 1 then
    { exitCode := 0, printed := usageLines, fs := fs, buildInvoked := false }
  else
    let version := versionOf argv
    let root := rootOf env argv
    let p : String × Option String := (env.antAlljarsStdout, none)
    if strContains p.1 "SUCCESSFUL" = false then
      { exitCode := 1, printed := [p.1, pyRepr p.2], fs := fs, buildInvoked := true }
    else
      match go env root version "/org/mongodb/" "mongo" "mongo-java-driver" fs with
      | .error (_, fsE) => { exitCode := 1, printed := [], fs := fsE, buildInvoked := true }
      | .ok fs1 =>
        match go env root version "/org/bson/" "bson" "bson" fs1 with
        | .error (_, fsE) => { exitCode := 1, printed := [], fs := fsE, buildInvoked := true }
        | .ok fs2 => { exitCode := 0, printed := [], fs := fs2, buildInvoked := true }

/-- A concrete environment used to exercise the model on closed inputs. -/
def env0 : Env where
  home := "/home/user"
  userHome := fun _ => none
  antCleanStdout := "BUILD SUCCESSFUL"
  antAlljarsStdout := "BUILD SUCCESSFUL"
  sha1hex := fun _ => "da39a3ee5e6b4b0d3255bfef95601890afd80709"
  pretty := fun s => s
  nowMs := 0

/-- A concrete initial filesystem holding the six locally built jars and the
two descriptor templates, with an empty destination tree. -/
def fs0 : FS where
  dirs := []
  files :=
    [("mongo.jar", "MJ"), ("mongo-sources.jar", "MS"), ("mongo-javadoc.jar", "MD"),
     ("bson.jar", "BJ"), ("bson-sources.jar", "BS"), ("bson-javadoc.jar", "BD"),
     ("maven-mongo.xml", "<project><version>$VERSION</version></project>"),
     ("maven-bson.xml", "<project><v>$VERSION</v></project>")]

/-- The concrete environment of `env0` with a failing build output. -/
def envFail : Env :=
  { env0 with antAlljarsStdout := "BUILD FAILED" }

/-- A concrete group directory holding three version subdirectories and two
plain files, used to exercise metadata generation. -/
def fsC : FS where
  dirs := ["/g/1.0", "/g/1.1", "/g/2.0"]
  files := [("/g/readme.txt", "hello"), ("/g/maven-metadata.xml", "stale")]

/-- A filesystem agreeing with `fsB` on directories and file paths but not on
file contents. -/
def fsA : FS where
  dirs := ["/g/1.0"]
  files := [("/g/maven-metadata.xml", "old contents")]

/-- A filesystem agreeing with `fsA` on directories and file paths but not on
file contents. -/
def fsB : FS where
  dirs := ["/g/1.0"]
  files := [("/g/maven-metadata.xml", "different contents")]

/-- The filesystem of `fs0` with the sources jar of the first artifact
missing, so the first artifact's copy loop fails midway. -/
def fsM : FS where
  dirs := []
  files :=
    [("mongo.jar", "MJ"), ("mongo-javadoc.jar", "MD"),
     ("bson.jar", "BJ"), ("bson-sources.jar", "BS"), ("bson-javadoc.jar", "BD"),
     ("maven-mongo.xml", "<project><version>$VERSION</version></project>"),
     ("maven-bson.xml", "<project><v>$VERSION</v></project>")]

instance : DecidableEq (Except (String × FS) FS) := fun a b =>
  match a, b with
  | .ok x, .ok y =>
    match decEq x y with
    | isTrue h => isTrue (h ▸ rfl)
    | isFalse h => isFalse (fun hc => h (Except.ok.inj hc))
  | .error x, .error y =>
    match decEq x y with
    | isTrue h => isTrue (h ▸ rfl)
    | isFalse h => isFalse (fun hc => h (Except.error.inj hc))
  | .ok _, .error _ => isFalse (fun hc => Except.noConfusion hc)
  | .error _, .ok _ => isFalse (fun hc => Except.noConfusion hc)

/-! Basic lemmas about the string and filesystem primitives. -/

theorem strEq_iff {a b : String} : a = b ↔ a.data = b.data :=
  ⟨fun h => h ▸ rfl, String.ext⟩

theorem chContains_iff {l : List Char} {c : Char} : l.contains c = true ↔ c ∈ l :=
  List.elem_iff

theorem strContains_iff {s pat : String} :
    strContains s pat = true ↔ ∃ t, t <:+ s.data ∧ pat.data <+: t := by
  unfold strContains
  rw [List.any_eq_true]
  constructor
  · rintro ⟨t, ht, hp⟩
    exact ⟨t, (List.mem_tails t s.data).mp ht, (List.isPrefixOf_iff_prefix).mp hp⟩
  · rintro ⟨t, ht, hp⟩
    exact ⟨t, (List.mem_tails t s.data).mpr ht, (List.isPrefixOf_iff_prefix).mpr hp⟩

theorem setFile_cons (r d : String) (l : List (String × String)) (p c : String) :
    setFile ((r, d) :: l) p c =
      if r = p then (p, c) :: l else (r, d) :: setFile l p c := rfl

theorem lookup_cons_self (k b : String) (es : List (String × String)) :
    List.lookup k ((k, b) :: es) = some b := by
  rw [List.lookup_cons, beq_self_eq_true]

theorem lookup_cons_ne {q k : String} (b : String) (es : List (String × String))
    (h : q ≠ k) : List.lookup q ((k, b) :: es) = List.lookup q es := by
  rw [List.lookup_cons, beq_false_of_ne h]

theorem lookup_setFile : ∀ (l : List (String × String)) (p c q : String),
    List.lookup q (setFile l p c) = if q = p then some c else List.lookup q l := by
  intro l p c q
  induction l with
  | nil =>
    show List.lookup q [(p, c)] = _
    by_cases h : q = p
    · subst h
      rw [lookup_cons_self, if_pos rfl]
    · rw [lookup_cons_ne _ _ h, if_neg h]
  | cons hd l ih =>
    obtain ⟨r, d⟩ := hd
    rw [setFile_cons]
    by_cases hr : r = p
    · subst hr
      rw [if_pos rfl]
      by_cases h : q = r
      · subst h
        rw [lookup_cons_self, if_pos rfl]
      · rw [lookup_cons_ne _ _ h, if_neg h, lookup_cons_ne _ _ h]
    · rw [if_neg hr]
      by_cases h : q = r
      · subst h
        rw [lookup_cons_self, if_neg hr, lookup_cons_self]
      · rw [lookup_cons_ne _ _ h, ih]
        by_cases hqp : q = p
        · rw [if_pos hqp, if_pos hqp]
        · rw [if_neg hqp, if_neg hqp, lookup_cons_ne _ _ h]

theorem read_write_self (fs : FS) (p c : String) : (fs.write p c).read p = some c := by
  show List.lookup p (setFile fs.files p c) = some c
  rw [lookup_setFile, if_pos rfl]

theorem read_write_ne (fs : FS) {p q : String} (c : String) (h : q ≠ p) :
    (fs.write p c).read q = fs.read q := by
  show List.lookup q (setFile fs.files p c) = List.lookup q fs.files
  rw [lookup_setFile, if_neg h]

theorem write_dirs (fs : FS) (p c : String) : (fs.write p c).dirs = fs.dirs := rfl

/-- Writing back the value already stored leaves the file list unchanged. -/
theorem setFile_noop {l : List (String × String)} {p c : String}
    (h : List.lookup p l = some c) : setFile l p c = l := by
  induction l with
  | nil => simp [List.lookup] at h
  | cons hd l ih =>
    obtain ⟨q, d⟩ := hd
    by_cases hq : q = p
    · subst hq
      simp [List.lookup] at h
      simp [setFile, h]
    · rw [List.lookup_cons] at h
      have hbeq : (p == q) = false := by
        simp [beq_iff_eq]
        exact fun he => hq he.symm
      rw [hbeq] at h
      simp [setFile, hq, ih h]

theorem write_noop {fs : FS} {p c : String} (h : fs.read p = some c) :
    fs.write p c = fs := by
  show { fs with files := setFile fs.files p c } = fs
  rw [setFile_noop h]

/-- A stored file stays stored (maybe with new contents) across a write. -/
theorem read_isSome_write (fs : FS) {q : String} (p c : String)
    (h : (fs.read q).isSome) : ((fs.write p c).read q).isSome := by
  by_cases hq : q = p
  · subst hq
    simp [read_write_self]
  · rw [read_write_ne fs c hq]
    exact h

/-! Lemmas about `dedupAcc`. -/

theorem mem_dedupAcc {x : String} : ∀ {seen l : List String},
    x ∈ dedupAcc seen l ↔ x ∈ l ∧ x ∉ seen := by
  intro seen l
  induction l generalizing seen with
  | nil => simp [dedupAcc]
  | cons a l ih =>
    by_cases ha : a ∈ seen
    · rw [show dedupAcc seen (a :: l) = dedupAcc seen l from by simp [dedupAcc, ha], ih]
      constructor
      · rintro ⟨h1, h2⟩
        exact ⟨List.mem_cons_of_mem _ h1, h2⟩
      · rintro ⟨h1, h2⟩
        rcases List.mem_cons.mp h1 with rfl | h1
        · exact absurd ha h2
        · exact ⟨h1, h2⟩
    · rw [show dedupAcc seen (a :: l) = a :: dedupAcc (a :: seen) l from by
        simp [dedupAcc, ha]]
      constructor
      · intro hx
        rcases List.mem_cons.mp hx with rfl | hx
        · exact ⟨List.mem_cons_self _ _, ha⟩
        · obtain ⟨h1, h2⟩ := ih.mp hx
          exact ⟨List.mem_cons_of_mem _ h1, fun hs => h2 (List.mem_cons_of_mem _ hs)⟩
      · rintro ⟨h1, h2⟩
        rcases List.mem_cons.mp h1 with rfl | h1
        · exact List.mem_cons_self _ _
        · by_cases hxa : x = a
          · exact hxa ▸ List.mem_cons_self _ _
          · refine List.mem_cons_of_mem _ (ih.mpr ⟨h1, fun hs => ?_⟩)
            rcases List.mem_cons.mp hs with h | h
            · exact hxa h
            · exact h2 h

theorem seenAfter_nil (seen : List String) : seenAfter seen [] = seen := rfl

theorem mem_seenAfter {x : String} : ∀ {seen l : List String},
    x ∈ seenAfter seen l ↔ x ∈ seen ∨ x ∈ l := by
  intro seen l
  induction l generalizing seen with
  | nil => simp [seenAfter]
  | cons a l ih =>
    show x ∈ seenAfter (if a ∈ seen then seen else a :: seen) l ↔ _
    by_cases ha : a ∈ seen
    · rw [if_pos ha, ih]
      constructor
      · rintro (h | h)
        · exact Or.inl h
        · exact Or.inr (List.mem_cons_of_mem _ h)
      · rintro (h | h)
        · exact Or.inl h
        · rcases List.mem_cons.mp h with rfl | h
          · exact Or.inl ha
          · exact Or.inr h
    · rw [if_neg ha, ih]
      simp only [List.mem_cons]
      tauto

theorem seenAfter_cons (seen : List String) (a : String) (l : List String) :
    seenAfter seen (a :: l) = seenAfter (if a ∈ seen then seen else a :: seen) l := rfl

theorem dedupAcc_append : ∀ (seen xs ys : List String),
    dedupAcc seen (xs ++ ys) = dedupAcc seen xs ++ dedupAcc (seenAfter seen xs) ys := by
  intro seen xs ys
  induction xs generalizing seen with
  | nil => simp [dedupAcc, seenAfter]
  | cons a xs ih =>
    by_cases ha : a ∈ seen
    · rw [show dedupAcc seen (a :: xs ++ ys) = dedupAcc seen (xs ++ ys) by
          simp [dedupAcc, ha],
        ih,
        show dedupAcc seen (a :: xs) = dedupAcc seen xs by simp [dedupAcc, ha],
        seenAfter_cons, if_pos ha]
    · rw [show dedupAcc seen (a :: xs ++ ys) = a :: dedupAcc (a :: seen) (xs ++ ys) by
          simp [dedupAcc, ha],
        ih,
        show dedupAcc seen (a :: xs) = a :: dedupAcc (a :: seen) xs by
          simp [dedupAcc, ha],
        seenAfter_cons, if_neg ha, List.cons_append]

/-! Lemmas about `tailRun`, `stripSlashes`, `ospSplit`, `dirPref`, `ospJoin`
and `childName`. -/

theorem takeWhile_eq_self_of {P : Char → Bool} {l : List Char}
    (h : ∀ c ∈ l, P c = true) : l.takeWhile P = l :=
  List.takeWhile_eq_self_iff.mpr h

theorem tailRun_no_slash (cs : List Char) : '/' ∉ tailRun cs := by
  unfold tailRun
  intro hmem
  rw [List.mem_reverse] at hmem
  have h2 := List.mem_takeWhile_imp hmem
  simp at h2

theorem tailRun_length_le (cs : List Char) : (tailRun cs).length ≤ cs.length := by
  unfold tailRun
  rw [List.length_reverse]
  calc (cs.reverse.takeWhile _).length ≤ cs.reverse.length :=
        List.IsPrefix.length_le (List.takeWhile_prefix _)
    _ = cs.length := List.length_reverse _

theorem tailRun_ne_nil {cs : List Char} (h1 : cs ≠ [])
    (h2 : cs.getLast? ≠ some '/') : tailRun cs ≠ [] := by
  unfold tailRun
  rw [List.getLast?_eq_head?_reverse] at h2
  obtain ⟨c, rest, hrev⟩ : ∃ c rest, cs.reverse = c :: rest := by
    cases hr : cs.reverse with
    | nil => exact absurd (by rw [← List.reverse_reverse cs, hr]; rfl) h1
    | cons c rest => exact ⟨c, rest, rfl⟩
  rw [hrev]
  rw [hrev] at h2
  have hc : c ≠ '/' := fun hceq => h2 (by rw [hceq]; rfl)
  rw [List.takeWhile_cons, if_pos (by simp [hc])]
  simp

theorem tailRun_append {a b : List Char} (ha : a.getLast? = some '/')
    (hb : ∀ c ∈ b, c ≠ '/') : tailRun (a ++ b) = b := by
  unfold tailRun
  rw [List.reverse_append]
  rw [List.takeWhile_append]
  rw [takeWhile_eq_self_of (by
    intro c hc
    simp [hb c (List.mem_reverse.mp hc)])]
  rw [if_pos rfl]
  rw [List.getLast?_eq_head?_reverse] at ha
  obtain ⟨rest, hrev⟩ : ∃ rest, a.reverse = '/' :: rest := by
    cases hr : a.reverse with
    | nil => rw [hr] at ha; exact absurd ha (by simp)
    | cons c rest =>
      rw [hr] at ha
      simp at ha
      exact ⟨rest, by rw [ha]⟩
  rw [hrev, List.takeWhile_cons, if_neg (by simp)]
  simp

theorem stripSlashes_pref (cs : List Char) : stripSlashes cs <+: cs := by
  have h2 : (stripSlashes cs).reverse <:+ cs.reverse := by
    show (cs.reverse.dropWhile _).reverse.reverse <:+ _
    rw [List.reverse_reverse]
    exact List.dropWhile_suffix _
  exact List.reverse_suffix.mp h2

theorem dropWhile_head_not {P : Char → Bool} : ∀ (l : List Char) (c : Char)
    (rest : List Char), l.dropWhile P = c :: rest → P c = false := by
  intro l
  induction l with
  | nil => intro c rest h; simp [List.dropWhile] at h
  | cons x xs ih =>
    intro c rest h
    rw [List.dropWhile_cons] at h
    by_cases hx : P x = true
    · rw [if_pos hx] at h
      exact ih c rest h
    · rw [if_neg hx] at h
      cases h
      simpa using hx

theorem stripSlashes_last_ne {cs : List Char} :
    (stripSlashes cs).getLast? ≠ some '/' := by
  unfold stripSlashes
  rw [List.getLast?_eq_head?_reverse, List.reverse_reverse]
  cases hd : cs.reverse.dropWhile (fun c => c == '/') with
  | nil => simp
  | cons c rest =>
    have hnot := dropWhile_head_not cs.reverse c rest hd
    simp only [List.head?]
    intro hcon
    have : c = '/' := by simpa using hcon
    rw [this] at hnot
    simp at hnot

theorem stripSlashes_eq_nil_iff {cs : List Char} :
    stripSlashes cs = [] ↔ ∀ c ∈ cs, c = '/' := by
  unfold stripSlashes
  rw [List.reverse_eq_nil_iff, List.dropWhile_eq_nil_iff]
  constructor
  · intro h c hc
    have := h c (List.mem_reverse.mpr hc)
    simpa using this
  · intro h c hc
    simp [h c (List.mem_reverse.mp hc)]

theorem stripSlashes_append_slash {a : List Char} (ha : a ≠ [])
    (hlast : a.getLast? ≠ some '/') : stripSlashes (a ++ ['/']) = a := by
  unfold stripSlashes
  rw [List.reverse_append,
    show (['/'] : List Char).reverse ++ a.reverse = '/' :: a.reverse from rfl,
    List.dropWhile_cons, if_pos (by simp)]
  rw [List.getLast?_eq_head?_reverse] at hlast
  obtain ⟨c, rest, hrev⟩ : ∃ c rest, a.reverse = c :: rest := by
    cases hr : a.reverse with
    | nil => exact absurd (by rw [← List.reverse_reverse a, hr]; rfl) ha
    | cons c rest => exact ⟨c, rest, rfl⟩
  rw [hrev]
  rw [hrev] at hlast
  have hc : ¬((c == '/') = true) := by
    simp only [beq_iff_eq]
    intro hceq
    exact hlast (by rw [hceq]; rfl)
  rw [List.dropWhile_cons, if_neg hc]
  rw [← hrev, List.reverse_reverse]

theorem ospSplit_snd_data (p : String) : (ospSplit p).2.data = tailRun p.data := rfl

theorem ospSplit_snd_no_slash (p : String) : '/' ∉ (ospSplit p).2.data := by
  rw [ospSplit_snd_data]
  exact tailRun_no_slash _

theorem ospSplit_snd_ne_nil {p : String} (h1 : p.data ≠ [])
    (h2 : p.data.getLast? ≠ some '/') : (ospSplit p).2.data ≠ [] := by
  rw [ospSplit_snd_data]
  exact tailRun_ne_nil h1 h2

theorem ospSplit_fst_data (p : String) : (ospSplit p).1.data =
    (if (stripSlashes (p.data.take (p.data.length - (tailRun p.data).length))).isEmpty
     then p.data.take (p.data.length - (tailRun p.data).length)
     else stripSlashes (p.data.take (p.data.length - (tailRun p.data).length))) := rfl

theorem ospSplit_fst_pref (p : String) : (ospSplit p).1.data <+: p.data := by
  rw [ospSplit_fst_data]
  by_cases h : (stripSlashes (p.data.take (p.data.length - (tailRun p.data).length))).isEmpty
  · rw [if_pos h]
    exact List.take_prefix _ _
  · rw [if_neg h]
    exact List.IsPrefix.trans (stripSlashes_pref _) (List.take_prefix _ _)

theorem ospSplit_fst_length_lt {p : String} (h : (ospSplit p).2.data ≠ []) :
    (ospSplit p).1.data.length < p.data.length := by
  rw [ospSplit_snd_data] at h
  have hp : p.data ≠ [] := by
    intro h0
    exact h (by rw [h0]; rfl)
  have hlen : 1 ≤ p.data.length := by
    cases hc : p.data with
    | nil => exact absurd hc hp
    | cons c t => simp
  have htl1 : 1 ≤ (tailRun p.data).length := by
    cases hc : tailRun p.data with
    | nil => exact absurd hc h
    | cons c t => simp
  have htake : (p.data.take (p.data.length - (tailRun p.data).length)).length
      < p.data.length := by
    rw [List.length_take]
    have := tailRun_length_le p.data
    omega
  rw [ospSplit_fst_data]
  by_cases hb : (stripSlashes (p.data.take (p.data.length - (tailRun p.data).length))).isEmpty
  · rw [if_pos hb]
    exact htake
  · rw [if_neg hb]
    calc (stripSlashes _).length
        ≤ (p.data.take (p.data.length - (tailRun p.data).length)).length :=
          List.IsPrefix.length_le (stripSlashes_pref _)
      _ < p.data.length := htake

/-- Splitting `a ++ "/" ++ v` where `v` is a nonempty slash-free component and
`a` is nonempty and does not end in a slash gives back `(a, v)`. -/
theorem ospSplit_concat {a v : String} (ha : a.data ≠ [])
    (hlast : a.data.getLast? ≠ some '/') (hvs : '/' ∉ v.data) :
    ospSplit (a ++ "/" ++ v) = (a, v) := by
  have hdata : (a ++ "/" ++ v).data = (a.data ++ ['/']) ++ v.data := by
    rw [String.data_append, String.data_append]
  have htr : tailRun (a ++ "/" ++ v).data = v.data := by
    rw [hdata]
    refine tailRun_append ?_ ?_
    · rw [List.getLast?_append]
      rfl
    · intro c hc hceq
      exact hvs (hceq ▸ hc)
  have hlen : (a ++ "/" ++ v).data.length - (tailRun (a ++ "/" ++ v).data).length
      = (a.data ++ ['/']).length := by
    rw [htr, hdata, List.length_append]
    omega
  have htake : (a ++ "/" ++ v).data.take ((a ++ "/" ++ v).data.length -
      (tailRun (a ++ "/" ++ v).data).length) = a.data ++ ['/'] := by
    rw [hlen, hdata, List.take_left]
  have hstrip : stripSlashes ((a ++ "/" ++ v).data.take ((a ++ "/" ++ v).data.length -
      (tailRun (a ++ "/" ++ v).data).length)) = a.data := by
    rw [htake]
    exact stripSlashes_append_slash ha hlast
  have hne : (stripSlashes ((a ++ "/" ++ v).data.take ((a ++ "/" ++ v).data.length -
      (tailRun (a ++ "/" ++ v).data).length))).isEmpty = false := by
    rw [hstrip]
    cases hc : a.data with
    | nil => exact absurd hc ha
    | cons c t => simp
  show (⟨if _ then _ else _⟩, (⟨tailRun (a ++ "/" ++ v).data⟩ : String)) = (a, v)
  rw [Prod.mk.injEq]
  constructor
  · rw [strEq_iff]
    show (if _ then _ else _ : List Char) = a.data
    rw [if_neg (by rw [hne]; simp), hstrip]
  · rw [strEq_iff]
    show tailRun (a ++ "/" ++ v).data = v.data
    exact htr

/-- Entries of a scanned tail that are already in the seen set produce
nothing through a filter selecting only seen-covered elements. -/
theorem filter_dedupAcc_eq_nil {P : String → Bool} {seen F : List String}
    (h : ∀ e ∈ F, P e = true → e ∈ seen) : (dedupAcc seen F).filter P = [] := by
  rw [List.filter_eq_nil_iff]
  intro x hx
  obtain ⟨hxF, hxs⟩ := mem_dedupAcc.mp hx
  intro hP
  exact hxs (h x hxF hP)

theorem dirPref_of_last_ne {p : String} (h : p.data.getLast? ≠ some '/') :
    dirPref p = p ++ "/" := by
  unfold dirPref
  rw [if_neg h]

theorem dirPref_data_of_last_ne {p : String} (h : p.data.getLast? ≠ some '/') :
    (dirPref p).data = p.data ++ ['/'] := by
  rw [dirPref_of_last_ne h, String.data_append]

theorem ospJoin_rel {p e : String} (hp : p ≠ "") (he : e.data ≠ [])
    (hs : '/' ∉ e.data) : ospJoin p e = dirPref p ++ e := by
  unfold ospJoin
  obtain ⟨c, rest, hc⟩ : ∃ c rest, e.data = c :: rest := by
    cases hec : e.data with
    | nil => exact absurd hec he
    | cons c rest => exact ⟨c, rest, rfl⟩
  have h1 : ¬(e.data.head? = some '/') := by
    rw [hc]
    intro hcon
    simp at hcon
    exact hs (hcon ▸ (hc ▸ List.mem_cons_self c rest))
  rw [if_neg h1, if_neg hp]

theorem childName_some_iff {p q e : String} :
    childName p q = some e ↔
      q.data = (dirPref p).data ++ e.data ∧ e.data ≠ [] ∧ '/' ∉ e.data := by
  unfold childName
  by_cases hpr : (dirPref p).data.isPrefixOf q.data
  · rw [if_pos hpr]
    obtain ⟨t, ht⟩ := List.isPrefixOf_iff_prefix.mp hpr
    have hdrop : q.data.drop (dirPref p).data.length = t := by
      rw [← ht, List.drop_left]
    rw [hdrop]
    by_cases hcond : t.isEmpty || t.contains '/'
    · rw [if_pos hcond]
      constructor
      · intro h
        exact absurd h (by simp)
      · rintro ⟨h1, h2, h3⟩
        have hte : t = e.data := List.append_cancel_left (by rw [ht, h1])
        subst hte
        exfalso
        rcases Bool.or_eq_true_iff.mp hcond with hcnd | hcnd
        · exact h2 (by simpa using hcnd)
        · exact h3 (chContains_iff.mp hcnd)
    · rw [if_neg hcond]
      rw [Bool.or_eq_true_iff] at hcond
      push_neg at hcond
      obtain ⟨hc1, hc2⟩ := hcond
      constructor
      · intro h
        have he : e = (⟨t⟩ : String) := (Option.some.injEq _ _ ▸ h).symm
        subst he
        refine ⟨ht.symm, by simpa using hc1, fun hmem => hc2 (chContains_iff.mpr hmem)⟩
      · rintro ⟨h1, h2, h3⟩
        have hte : t = e.data := List.append_cancel_left (by rw [ht, h1])
        rw [hte]
  · rw [if_neg hpr]
    constructor
    · intro h
      exact absurd h (by simp)
    · rintro ⟨h1, h2, h3⟩
      exfalso
      apply hpr
      rw [List.isPrefixOf_iff_prefix, h1]
      exact ⟨e.data, rfl⟩

theorem childName_join {p e : String} (hp : p ≠ "") (he : e.data ≠ [])
    (hs : '/' ∉ e.data) : childName p (ospJoin p e) = some e := by
  rw [ospJoin_rel hp he hs]
  exact childName_some_iff.mpr ⟨String.data_append _ _, he, hs⟩

theorem childName_some_pref {p q e : String} (h : childName p q = some e) :
    (dirPref p).data <+: q.data := by
  obtain ⟨h1, _, _⟩ := childName_some_iff.mp h
  rw [h1]
  exact ⟨e.data, rfl⟩

theorem isdir_congr {fs1 fs2 : FS} (h : fs1.dirs = fs2.dirs) (x : String) :
    isdir fs1 x = isdir fs2 x := by
  unfold isdir
  rw [h]

theorem listdir_congr {fs1 fs2 : FS} (hd : fs1.dirs = fs2.dirs)
    (hf : fs1.files.map Prod.fst = fs2.files.map Prod.fst) (p : String) :
    listdir fs1 p = listdir fs2 p := by
  unfold listdir
  rw [hd, hf]

/-- The version entries of the metadata document are determined by the
directory part of the state alone: entries coming from plain files never
survive the directory filter, because a name that does denote a directory is
already produced by the directory scan. -/
theorem metadataVersions_eq {fs : FS} {p : String} (hp : p ≠ "") :
    metadataVersions fs p =
      (dedupAcc [] (fs.dirs.filterMap (childName p))).filter
        (fun e => isdir fs (ospJoin p e)) := by
  unfold metadataVersions listdir
  rw [List.filterMap_append, dedupAcc_append, List.filter_append]
  have hnil : (dedupAcc (seenAfter [] (fs.dirs.filterMap (childName p)))
      ((fs.files.map Prod.fst).filterMap (childName p))).filter
        (fun e => isdir fs (ospJoin p e)) = [] := by
    apply filter_dedupAcc_eq_nil
    intro e hmem hP
    obtain ⟨q, _, hq⟩ := List.mem_filterMap.mp hmem
    obtain ⟨_, he, hs⟩ := childName_some_iff.mp hq
    have hjoin : ospJoin p e = dirPref p ++ e := ospJoin_rel hp he hs
    obtain ⟨c, rest, hc⟩ : ∃ c rest, e.data = c :: rest := by
      cases hec : e.data with
      | nil => exact absurd hec he
      | cons c rest => exact ⟨c, rest, rfl⟩
    have hcne : c ≠ '/' := fun hceq => hs (hceq ▸ (hc ▸ List.mem_cons_self c rest))
    unfold isdir at hP
    rcases Bool.or_eq_true_iff.mp hP with hP | hP
    · have hmemd : ospJoin p e ∈ fs.dirs := List.elem_iff.mp hP
      have hcj := childName_join hp he hs
      refine mem_seenAfter.mpr (Or.inr ?_)
      exact List.mem_filterMap.mpr ⟨ospJoin p e, hmemd, hcj⟩
    · exfalso
      rw [Bool.and_eq_true] at hP
      obtain ⟨_, hall⟩ := hP
      have hcm : c ∈ (ospJoin p e).data := by
        rw [hjoin, String.data_append]
        exact List.mem_append.mpr (Or.inr (hc ▸ List.mem_cons_self c rest))
      have := List.all_eq_true.mp hall c hcm
      simp at this
      exact hcne this
  rw [hnil, List.append_nil]

/-- Prepending directories that are not children of `p` (and changing files
arbitrarily while keeping their paths children-equivalent) does not change
the version entries. -/
theorem metadataVersions_prepend {fs : FS} {p : String} (newD : List String)
    (F2 : List (String × String))
    (hp : p ≠ "") (hnew : ∀ d ∈ newD, childName p d = none) :
    metadataVersions { dirs := newD ++ fs.dirs, files := F2 } p
      = metadataVersions fs p := by
  rw [metadataVersions_eq hp, metadataVersions_eq hp]
  have hD : (newD ++ fs.dirs).filterMap (childName p) = fs.dirs.filterMap (childName p) := by
    rw [List.filterMap_append, List.filterMap_eq_nil_iff.mpr hnew, List.nil_append]
  show ((dedupAcc [] ((newD ++ fs.dirs).filterMap (childName p))).filter _) = _
  rw [hD]
  apply List.filter_congr
  intro e hmem
  obtain ⟨heD, _⟩ := mem_dedupAcc.mp hmem
  obtain ⟨q, _, hq⟩ := List.mem_filterMap.mp heD
  obtain ⟨_, he, hs⟩ := childName_some_iff.mp hq
  have hjoin := childName_join hp he hs
  show isdir { dirs := newD ++ fs.dirs, files := F2 } (ospJoin p e) = isdir fs (ospJoin p e)
  unfold isdir
  have hiff : (newD ++ fs.dirs).contains (ospJoin p e) = true
      ↔ fs.dirs.contains (ospJoin p e) = true := by
    constructor
    · intro h1
      rcases List.mem_append.mp (List.elem_iff.mp h1) with hm | hm
      · exfalso
        rw [hnew _ hm] at hjoin
        exact Option.noConfusion hjoin
      · exact List.elem_iff.mpr hm
    · intro h2
      exact List.elem_iff.mpr (List.mem_append.mpr (Or.inr (List.elem_iff.mp h2)))
  have hceq : (newD ++ fs.dirs).contains (ospJoin p e)
      = fs.dirs.contains (ospJoin p e) := by
    cases hc1 : fs.dirs.contains (ospJoin p e) with
    | true => exact hiff.mpr hc1
    | false =>
      cases hc2 : (newD ++ fs.dirs).contains (ospJoin p e) with
      | true => rw [← hc1, ← hiff.mp hc2]
      | false => rfl
  rw [hceq]

/-! Closed form of the generated metadata document. -/

theorem foldl_versionTags (fs : FS) (p : String) : ∀ (l : List String) (x0 : String),
    l.foldl (fun x e =>
        if isdir fs (ospJoin p e) then x ++ "<version>" ++ e ++ "</version>" else x) x0
      = x0 ++ versionTags (l.filter (fun e => isdir fs (ospJoin p e))) := by
  intro l
  induction l with
  | nil =>
    intro x0
    show x0 = x0 ++ versionTags []
    rw [show versionTags [] = "" from rfl, String.append_empty]
  | cons a l ih =>
    intro x0
    rw [List.foldl_cons, List.filter_cons]
    by_cases h : isdir fs (ospJoin p a)
    · rw [if_pos h, if_pos h, ih]
      show _ = x0 ++ versionTags (a :: _)
      rw [show ∀ t, versionTags (a :: t)
            = "<version>" ++ a ++ "</version>" ++ versionTags t from fun t => rfl]
      simp [String.append_assoc]
    · rw [if_neg h, if_neg (by simpa using h), ih]

theorem build_metadata_xml_eq (env : Env) (fs : FS) (path aid : String) :
    build_metadata_xml env fs path aid =
      "<metadata>" ++ "<groupId>org." ++ (ospSplit path).2 ++ "</groupId>"
        ++ "<artifactId>" ++ aid ++ "</artifactId>"
        ++ "<versioning><versions>"
        ++ versionTags (metadataVersions fs path)
        ++ "</versions>"
        ++ "<lastUpdated>" ++ toString env.nowMs ++ "</lastUpdated>"
        ++ "</versioning></metadata>" := by
  simp only [build_metadata_xml, metadataVersions]
  rw [foldl_versionTags]

/-! Lemmas about `pySplitCh` and `pyReplaceAux`. -/

theorem pySplitCh_cons (sep c : Char) (rest : List Char) :
    pySplitCh sep (c :: rest)
      = if c == sep then [] :: pySplitCh sep rest
        else match pySplitCh sep rest with
          | [] => [[c]]
          | h :: t => (c :: h) :: t := rfl

theorem pySplitCh_first {sep : Char} : ∀ {h : List Char} (t : List Char), sep ∉ h →
    pySplitCh sep (h ++ sep :: t) = h :: pySplitCh sep t := by
  intro h
  induction h with
  | nil =>
    intro t _
    show pySplitCh sep (sep :: t) = [] :: pySplitCh sep t
    rw [pySplitCh_cons, if_pos (by simp)]
  | cons c h' ih =>
    intro t hns
    have hc : c ≠ sep := fun hceq => hns (hceq ▸ List.mem_cons_self c h')
    have hns' : sep ∉ h' := fun hm => hns (List.mem_cons_of_mem _ hm)
    show pySplitCh sep (c :: (h' ++ sep :: t)) = (c :: h') :: pySplitCh sep t
    rw [pySplitCh_cons, if_neg (by simp [hc]), ih t hns']

theorem sha_extract {sha path : String} (hns : ' ' ∉ sha.data) :
    (pySplit (sha ++ "  " ++ path ++ "\n") ' ').headD "" = sha := by
  unfold pySplit
  have hd : (sha ++ "  " ++ path ++ "\n").data
      = sha.data ++ ' ' :: (' ' :: (path.data ++ ['\n'])) := by
    rw [String.data_append, String.data_append, String.data_append]
    rw [show ("  " : String).data = [' ', ' '] from rfl,
      show ("\n" : String).data = ['\n'] from rfl]
    simp
  rw [hd, pySplitCh_first _ hns]
  rfl

theorem pyReplaceAux_nil (old new : List Char) (f : Nat) :
    pyReplaceAux old new f [] = [] := by
  cases f <;> rfl

theorem pyReplaceAux_succ (old new : List Char) (fuel : Nat) (c : Char) (s : List Char) :
    pyReplaceAux old new (fuel + 1) (c :: s)
      = if old.isPrefixOf (c :: s)
        then new ++ pyReplaceAux old new fuel ((c :: s).drop old.length)
        else c :: pyReplaceAux old new fuel s := rfl

theorem pyReplaceAux_fuel {old new : List Char} (hold : old ≠ []) :
    ∀ (f1 : Nat) (s : List Char) (f2 : Nat), s.length ≤ f1 → s.length ≤ f2 →
      pyReplaceAux old new f1 s = pyReplaceAux old new f2 s := by
  intro f1
  induction f1 with
  | zero =>
    intro s f2 h1 _
    have : s = [] := List.length_eq_zero.mp (Nat.le_zero.mp h1)
    subst this
    rw [pyReplaceAux_nil, pyReplaceAux_nil]
  | succ g1 ih =>
    intro s f2 h1 h2
    cases s with
    | nil => rw [pyReplaceAux_nil, pyReplaceAux_nil]
    | cons c s' =>
      cases f2 with
      | zero => exact absurd h2 (by simp)
      | succ g2 =>
        rw [pyReplaceAux_succ, pyReplaceAux_succ]
        have hlen : s'.length ≤ g1 := by
          have := h1
          simp at this
          omega
        have hlen2 : s'.length ≤ g2 := by
          have := h2
          simp at this
          omega
        by_cases hpre : old.isPrefixOf (c :: s')
        · rw [if_pos hpre, if_pos hpre]
          have holdlen : 1 ≤ old.length := by
            cases ho : old with
            | nil => exact absurd ho hold
            | cons x xs => simp
          have hdl : ((c :: s').drop old.length).length ≤ g1 := by
            rw [List.length_drop]
            simp
            omega
          have hdl2 : ((c :: s').drop old.length).length ≤ g2 := by
            rw [List.length_drop]
            simp
            omega
          rw [ih _ _ hdl hdl2]
        · rw [if_neg hpre, if_neg hpre, ih _ _ hlen hlen2]

theorem pyReplaceAux_scan_free {v : String} : ∀ {p : List Char} (r : List Char),
    '$' ∉ p →
    pyReplaceAux ("$VERSION" : String).data v.data ((p ++ r).length) (p ++ r)
      = p ++ pyReplaceAux ("$VERSION" : String).data v.data r.length r := by
  intro p
  induction p with
  | nil => intro r _; rw [List.nil_append, List.nil_append]
  | cons c p' ih =>
    intro r hfree
    have hc : c ≠ '$' := fun hceq => hfree (hceq ▸ List.mem_cons_self c p')
    have hfree' : '$' ∉ p' := fun hm => hfree (List.mem_cons_of_mem _ hm)
    rw [show (c :: p') ++ r = c :: (p' ++ r) from rfl,
      show (c :: (p' ++ r)).length = (p' ++ r).length + 1 from rfl,
      pyReplaceAux_succ]
    have hpre : ("$VERSION" : String).data.isPrefixOf (c :: (p' ++ r)) = false := by
      show List.isPrefixOf ('$' :: ("VERSION" : String).data) (c :: (p' ++ r)) = false
      show (('$' : Char) == c && List.isPrefixOf ("VERSION" : String).data (p' ++ r)) = false
      rw [beq_false_of_ne (Ne.symm hc), Bool.false_and]
    rw [hpre, if_neg (by simp), ih r hfree', List.cons_append]

theorem pyReplaceAux_match_at {v : String} (r : List Char) :
    pyReplaceAux ("$VERSION" : String).data v.data
        ((("$VERSION" : String).data ++ r).length) (("$VERSION" : String).data ++ r)
      = v.data ++ pyReplaceAux ("$VERSION" : String).data v.data r.length r := by
  rw [show ("$VERSION" : String).data ++ r = '$' :: (("VERSION" : String).data ++ r) from rfl,
    show ('$' :: (("VERSION" : String).data ++ r)).length
      = (("VERSION" : String).data ++ r).length + 1 from rfl,
    pyReplaceAux_succ]
  have hpre : ("$VERSION" : String).data.isPrefixOf
      ('$' :: (("VERSION" : String).data ++ r)) = true :=
    List.isPrefixOf_iff_prefix.mpr ⟨r, rfl⟩
  rw [hpre, if_pos rfl]
  have hdrop : ('$' :: (("VERSION" : String).data ++ r)).drop
      ("$VERSION" : String).data.length = r := List.drop_left ("$VERSION" : String).data r
  rw [hdrop]
  congr 1
  apply pyReplaceAux_fuel (by decide)
  · rw [List.length_append]
    omega
  · exact Nat.le_refl _

theorem intercalate_single (sep x : List Char) : List.intercalate sep [x] = x := by
  simp [List.intercalate]

theorem intercalate_cons2 (sep x y : List Char) (t : List (List Char)) :
    List.intercalate sep (x :: y :: t) = x ++ (sep ++ List.intercalate sep (y :: t)) := by
  simp [List.intercalate, List.intersperse_cons_cons]

theorem pyReplaceAux_intercalate {v : String} : ∀ (parts : List (List Char)),
    parts ≠ [] → (∀ p ∈ parts, '$' ∉ p) →
    pyReplaceAux ("$VERSION" : String).data v.data
        ((List.intercalate ("$VERSION" : String).data parts).length)
        (List.intercalate ("$VERSION" : String).data parts)
      = List.intercalate v.data parts := by
  intro parts
  induction parts with
  | nil => intro h _; exact absurd rfl h
  | cons p rest ih =>
    intro _ hfree
    cases rest with
    | nil =>
      rw [intercalate_single, intercalate_single]
      have hsf := @pyReplaceAux_scan_free v p []
        (hfree p (List.mem_cons_self _ _))
      rw [List.append_nil] at hsf
      rw [hsf, pyReplaceAux_nil, List.append_nil]
    | cons q t =>
      rw [intercalate_cons2, intercalate_cons2]
      rw [pyReplaceAux_scan_free _ (hfree p (List.mem_cons_self _ _))]
      rw [pyReplaceAux_match_at]
      rw [ih (by simp) (fun x hx => hfree x (List.mem_cons_of_mem _ hx))]

/-- Template substitution: when the template is the placeholder token
interleaved with token-free segments, the result is the version string
interleaved with the very same segments. -/
theorem pyReplace_eq_intercalate {t v : String} {parts : List (List Char)}
    (hne : parts ≠ []) (hfree : ∀ p ∈ parts, '$' ∉ p)
    (ht : t.data = List.intercalate ("$VERSION" : String).data parts) :
    pyReplace t "$VERSION" v = ⟨List.intercalate v.data parts⟩ := by
  unfold pyReplace
  rw [if_neg (by decide)]
  rw [strEq_iff]
  show pyReplaceAux _ _ t.data.length t.data = _
  rw [ht]
  exact pyReplaceAux_intercalate parts hne hfree

/-! State-shape lemmas for `mkdir`, `makedirsAux` and `ensureDir`. -/

theorem mkdir_state (fs : FS) (p : String) :
    (errState (mkdir fs p)).files = fs.files ∧
    ((errState (mkdir fs p)).dirs = fs.dirs ∨
      (errState (mkdir fs p)).dirs = p :: fs.dirs) := by
  unfold mkdir
  by_cases h1 : pathExists fs p = true
  · rw [if_pos h1]
    exact ⟨rfl, Or.inl rfl⟩
  · rw [if_neg h1]
    by_cases h2 : dirExists fs (ospSplit p).1 = true
    · rw [if_pos h2]
      exact ⟨rfl, Or.inr rfl⟩
    · rw [if_neg h2]
      exact ⟨rfl, Or.inl rfl⟩

theorem mkdir_ok {fs fs' : FS} {p : String} (h : mkdir fs p = .ok fs') :
    fs' = { fs with dirs := p :: fs.dirs } := by
  unfold mkdir at h
  by_cases h1 : pathExists fs p = true
  · rw [if_pos h1] at h
    exact absurd h (by simp)
  · rw [if_neg h1] at h
    by_cases h2 : dirExists fs (ospSplit p).1 = true
    · rw [if_pos h2] at h
      injection h with h'
      exact h'.symm
    · rw [if_neg h2] at h
      exact absurd h (by simp)

theorem makedirsAux_succ (g : Nat) (fs : FS) (name : String) :
    makedirsAux (g + 1) fs name
      = (if (if (ospSplit name).2 = "" then ospSplit (ospSplit name).1
              else ospSplit name).1 ≠ ""
            ∧ (if (ospSplit name).2 = "" then ospSplit (ospSplit name).1
              else ospSplit name).2 ≠ ""
            ∧ pathExists fs (if (ospSplit name).2 = "" then ospSplit (ospSplit name).1
                else ospSplit name).1 = false then
          match makedirsAux g fs (if (ospSplit name).2 = "" then ospSplit (ospSplit name).1
              else ospSplit name).1 with
          | .error e => .error e
          | .ok fs' => if (if (ospSplit name).2 = "" then ospSplit (ospSplit name).1
              else ospSplit name).2 = "." then .ok fs' else mkdir fs' name
        else mkdir fs name) := rfl

/-- The head on which `makedirsAux` recurses is always a string-level
initial segment of the name being created. -/
theorem split2_fst_pref (name : String) :
    (if (ospSplit name).2 = "" then ospSplit (ospSplit name).1
      else ospSplit name).1.data <+: name.data := by
  by_cases h0 : (ospSplit name).2 = ""
  · rw [if_pos h0]
    exact List.IsPrefix.trans (ospSplit_fst_pref _) (ospSplit_fst_pref _)
  · rw [if_neg h0]
    exact ospSplit_fst_pref _

theorem makedirsAux_state (fuel : Nat) : ∀ (fs : FS) (name : String),
    (errState (makedirsAux fuel fs name)).files = fs.files ∧
    ∃ new, (errState (makedirsAux fuel fs name)).dirs = new ++ fs.dirs ∧
      ∀ d ∈ new, d.data <+: name.data := by
  induction fuel with
  | zero =>
    intro fs name
    exact ⟨rfl, [], (List.nil_append _).symm, by simp⟩
  | succ g ih =>
    intro fs name
    rw [makedirsAux_succ]
    have hpre := split2_fst_pref name
    by_cases hg : (if (ospSplit name).2 = "" then ospSplit (ospSplit name).1
          else ospSplit name).1 ≠ ""
        ∧ (if (ospSplit name).2 = "" then ospSplit (ospSplit name).1
          else ospSplit name).2 ≠ ""
        ∧ pathExists fs (if (ospSplit name).2 = "" then ospSplit (ospSplit name).1
            else ospSplit name).1 = false
    · rw [if_pos hg]
      obtain ⟨hfiles, new, hdirs, hnew⟩ := ih fs
        (if (ospSplit name).2 = "" then ospSplit (ospSplit name).1 else ospSplit name).1
      have hnew' : ∀ d ∈ new, d.data <+: name.data :=
        fun d hd => List.IsPrefix.trans (hnew d hd) hpre
      cases hrec : makedirsAux g fs
          (if (ospSplit name).2 = "" then ospSplit (ospSplit name).1
            else ospSplit name).1 with
      | error e =>
        obtain ⟨msg, fsE⟩ := e
        rw [hrec] at hfiles hdirs
        dsimp only [errState] at hfiles hdirs ⊢
        exact ⟨hfiles, new, hdirs, hnew'⟩
      | ok fsh =>
        rw [hrec] at hfiles hdirs
        dsimp only [errState] at hfiles hdirs
        dsimp only
        by_cases hdot : (if (ospSplit name).2 = "" then ospSplit (ospSplit name).1
            else ospSplit name).2 = "."
        · rw [if_pos hdot]
          exact ⟨hfiles, new, hdirs, hnew'⟩
        · rw [if_neg hdot]
          obtain ⟨hf2, hd2⟩ := mkdir_state fsh name
          refine ⟨hf2.trans hfiles, ?_⟩
          rcases hd2 with hd2 | hd2
          · exact ⟨new, hd2.trans hdirs, hnew'⟩
          · refine ⟨name :: new, ?_, ?_⟩
            · rw [hd2, hdirs]
              rfl
            · intro d hd
              rcases List.mem_cons.mp hd with rfl | hd
              · exact List.prefix_refl _
              · exact hnew' d hd
    · rw [if_neg hg]
      obtain ⟨hf2, hd2⟩ := mkdir_state fs name
      refine ⟨hf2, ?_⟩
      rcases hd2 with hd2 | hd2
      · exact ⟨[], by rw [hd2]; exact (List.nil_append _).symm, by simp⟩
      · refine ⟨[name], by rw [hd2]; rfl, ?_⟩
        intro d hd
        rcases List.mem_cons.mp hd with rfl | hd
        · exact List.prefix_refl _
        · simp at hd

/-- Creating a directory chain puts the requested directory in place, as long
as no component of the requested path is the special name `"."`. -/
theorem makedirsAux_ok_mem {fuel : Nat} {fs fs' : FS} {name : String}
    (hdot : ∀ q : String, q.data <+: name.data → (ospSplit q).2 ≠ ".")
    (h : makedirsAux fuel fs name = .ok fs') : name ∈ fs'.dirs := by
  cases fuel with
  | zero => exact absurd h (by simp [makedirsAux])
  | succ g =>
    rw [makedirsAux_succ] at h
    have htail : (if (ospSplit name).2 = "" then ospSplit (ospSplit name).1
        else ospSplit name).2 ≠ "." := by
      by_cases h0 : (ospSplit name).2 = ""
      · rw [if_pos h0]
        exact hdot (ospSplit name).1 (ospSplit_fst_pref _)
      · rw [if_neg h0]
        exact hdot name (List.prefix_refl _)
    by_cases hg : (if (ospSplit name).2 = "" then ospSplit (ospSplit name).1
          else ospSplit name).1 ≠ ""
        ∧ (if (ospSplit name).2 = "" then ospSplit (ospSplit name).1
          else ospSplit name).2 ≠ ""
        ∧ pathExists fs (if (ospSplit name).2 = "" then ospSplit (ospSplit name).1
            else ospSplit name).1 = false
    · rw [if_pos hg] at h
      cases hrec : makedirsAux g fs
          (if (ospSplit name).2 = "" then ospSplit (ospSplit name).1
            else ospSplit name).1 with
      | error e =>
        rw [hrec] at h
        exact absurd h (by simp)
      | ok fsh =>
        rw [hrec] at h
        dsimp only at h
        rw [if_neg htail] at h
        rw [mkdir_ok h]
        exact List.mem_cons_self _ _
    · rw [if_neg hg] at h
      rw [mkdir_ok h]
      exact List.mem_cons_self _ _

theorem contains_false_iff {l : List String} {x : String} :
    l.contains x = false ↔ x ∉ l := by
  constructor
  · intro h hm
    have : l.contains x = true := List.elem_iff.mpr hm
    rw [h] at this
    exact Bool.noConfusion this
  · intro hm
    cases hc : l.contains x with
    | false => rfl
    | true => exact absurd (List.elem_iff.mp hc) hm

theorem pathExists_false_parts {fs : FS} {p : String} (h : pathExists fs p = false) :
    fs.dirs.contains p = false ∧ (fs.read p).isSome = false ∧
      (!p.data.isEmpty && p.data.all (fun c => c == '/')) = false := by
  unfold pathExists at h
  rcases Bool.or_eq_false_iff.mp h with ⟨h12, h3⟩
  rcases Bool.or_eq_false_iff.mp h12 with ⟨h1, h2⟩
  exact ⟨h1, h2, h3⟩

theorem pathExists_of_parts {fs : FS} {p : String} (h1 : fs.dirs.contains p = false)
    (h2 : (fs.read p).isSome = false)
    (h3 : (!p.data.isEmpty && p.data.all (fun c => c == '/')) = false) :
    pathExists fs p = false := by
  unfold pathExists
  rw [h1, h2, h3]
  rfl

theorem pathExists_all_slash {fs : FS} {p : String} (h1 : p.data ≠ [])
    (h2 : ∀ c ∈ p.data, c = '/') : pathExists fs p = true := by
  unfold pathExists
  have ha : p.data.all (fun c => c == '/') = true :=
    List.all_eq_true.mpr (fun c hc => by simp [h2 c hc])
  have hb : p.data.isEmpty = false := by
    cases hc : p.data with
    | nil => exact absurd hc h1
    | cons c t => rfl
  rw [ha, hb]
  simp

theorem pathExists_to_dirExists {fs : FS} {p : String} (h : pathExists fs p = true)
    (hfile : fs.read p = none) : dirExists fs p = true := by
  unfold pathExists at h
  unfold dirExists
  rw [hfile] at h
  simp at h ⊢
  tauto

theorem mkdir_ok_of {fs : FS} {p : String} (hex : pathExists fs p = false)
    (hpar : dirExists fs (ospSplit p).1 = true) :
    mkdir fs p = .ok { fs with dirs := p :: fs.dirs } := by
  unfold mkdir
  rw [if_neg (by simp [hex]), if_pos hpar]

/-- When the head of `ospSplit` is nonempty yet absent from the filesystem, it
cannot have been the all-slashes fallback (the root always exists), so it ends
in a non-slash character. -/
theorem ospSplit_fst_eq (p : String) : (ospSplit p).1 =
    ⟨if (stripSlashes (p.data.take (p.data.length - (tailRun p.data).length))).isEmpty
      then p.data.take (p.data.length - (tailRun p.data).length)
      else stripSlashes (p.data.take (p.data.length - (tailRun p.data).length))⟩ := rfl

theorem ospSplit_fst_last_ne {fs : FS} {p : String} (hne : (ospSplit p).1 ≠ "")
    (hex : pathExists fs (ospSplit p).1 = false) :
    (ospSplit p).1.data.getLast? ≠ some '/' := by
  by_cases hb : (stripSlashes (p.data.take (p.data.length - (tailRun p.data).length))).isEmpty
  · exfalso
    have h1 : (ospSplit p).1
        = ⟨p.data.take (p.data.length - (tailRun p.data).length)⟩ := by
      rw [ospSplit_fst_eq, if_pos hb]
    have hall : ∀ c ∈ p.data.take (p.data.length - (tailRun p.data).length), c = '/' :=
      stripSlashes_eq_nil_iff.mp (by simpa using hb)
    have hnn : p.data.take (p.data.length - (tailRun p.data).length) ≠ [] := by
      intro h0
      apply hne
      rw [h1, strEq_iff]
      exact h0
    have hpe := @pathExists_all_slash fs ⟨p.data.take
      (p.data.length - (tailRun p.data).length)⟩ hnn hall
    rw [h1, hpe] at hex
    exact Bool.noConfusion hex
  · have h1 : (ospSplit p).1
        = ⟨stripSlashes (p.data.take (p.data.length - (tailRun p.data).length))⟩ := by
      rw [ospSplit_fst_eq, if_neg hb]
    rw [h1]
    show (stripSlashes _).getLast? ≠ some '/'
    exact stripSlashes_last_ne

/-- Success of `os.makedirs` on a fresh path: when the requested directory
does not yet exist, no file occupies any initial segment of its path, its last
character is not a slash and no component is `"."`, the whole chain is created
without an error, the files are untouched, and the new directories are all
initial segments of the requested path, the path itself among them. -/
theorem makedirsAux_ok_exists (fuel : Nat) : ∀ (fs : FS) (name : String),
    name.data.length < fuel →
    pathExists fs name = false →
    name.data.getLast? ≠ some '/' →
    (∀ q : String, q.data <+: name.data → fs.read q = none) →
    (∀ q : String, q.data <+: name.data → (ospSplit q).2 ≠ ".") →
    ∃ new, makedirsAux fuel fs name = .ok { dirs := new ++ fs.dirs, files := fs.files }
      ∧ name ∈ new ∧ ∀ d ∈ new, d.data <+: name.data := by
  induction fuel with
  | zero =>
    intro fs name hlen _ _ _ _
    exact absurd hlen (by omega)
  | succ g ih =>
    intro fs name hlen hex hlast hfiles hdot
    rw [makedirsAux_succ]
    by_cases hnil : name.data = []
    · have hname : name = "" := strEq_iff.mpr hnil
      subst hname
      rw [if_neg (by
        rintro ⟨h1, _, _⟩
        exact h1 (by decide))]
      rw [mkdir_ok_of hex (by
        rw [show ((ospSplit "").1 : String) = "" from by decide]
        simp [dirExists])]
      exact ⟨[""], rfl, List.mem_cons_self _ _, by
        intro d hd
        rcases List.mem_cons.mp hd with rfl | hd
        · exact List.prefix_refl _
        · simp at hd⟩
    · have htl : (ospSplit name).2.data ≠ [] := ospSplit_snd_ne_nil hnil hlast
      have hsne : ¬((ospSplit name).2 = "") := fun h0 => htl (by rw [h0])
      rw [if_neg hsne]
      by_cases hh0 : (ospSplit name).1 = ""
      · rw [if_neg (by rintro ⟨h1, _, _⟩; exact h1 hh0)]
        rw [mkdir_ok_of hex (by rw [hh0]; simp [dirExists])]
        exact ⟨[name], rfl, List.mem_cons_self _ _, by
          intro d hd
          rcases List.mem_cons.mp hd with rfl | hd
          · exact List.prefix_refl _
          · simp at hd⟩
      · by_cases hhex : pathExists fs (ospSplit name).1 = false
        · rw [if_pos ⟨hh0, hsne, hhex⟩]
          have hlen' : (ospSplit name).1.data.length < g := by
            have h1 := ospSplit_fst_length_lt htl
            omega
          have hlast' : (ospSplit name).1.data.getLast? ≠ some '/' :=
            ospSplit_fst_last_ne hh0 hhex
          have hfiles' : ∀ q : String, q.data <+: (ospSplit name).1.data →
              fs.read q = none :=
            fun q hq => hfiles q (List.IsPrefix.trans hq (ospSplit_fst_pref _))
          have hdot' : ∀ q : String, q.data <+: (ospSplit name).1.data →
              (ospSplit q).2 ≠ "." :=
            fun q hq => hdot q (List.IsPrefix.trans hq (ospSplit_fst_pref _))
          obtain ⟨new', hrec, hmem', hpre'⟩ :=
            ih fs (ospSplit name).1 hlen' hhex hlast' hfiles' hdot'
          rw [hrec]
          dsimp only
          rw [if_neg (hdot name (List.prefix_refl _))]
          obtain ⟨hc1, hc2, hc3⟩ := pathExists_false_parts hex
          have hexh : pathExists { dirs := new' ++ fs.dirs, files := fs.files }
              name = false := by
            apply pathExists_of_parts
            · apply contains_false_iff.mpr
              intro hm
              rcases List.mem_append.mp hm with hm | hm
              · have hp := hpre' name hm
                have := List.IsPrefix.length_le hp
                have hlt := ospSplit_fst_length_lt htl
                have := List.IsPrefix.length_le (hpre' name hm)
                omega
              · exact absurd hm (contains_false_iff.mp hc1)
            · show (List.lookup name fs.files).isSome = false
              exact hc2
            · exact hc3
          have hparh : dirExists { dirs := new' ++ fs.dirs, files := fs.files }
              (ospSplit name).1 = true := by
            unfold dirExists
            have : (new' ++ fs.dirs).contains (ospSplit name).1 = true :=
              List.elem_iff.mpr (List.mem_append.mpr (Or.inl hmem'))
            rw [this]
            simp
          rw [mkdir_ok_of hexh hparh]
          refine ⟨name :: new', rfl, List.mem_cons_self _ _, ?_⟩
          intro d hd
          rcases List.mem_cons.mp hd with rfl | hd
          · exact List.prefix_refl _
          · exact List.IsPrefix.trans (hpre' d hd) (ospSplit_fst_pref _)
        · rw [if_neg (by rintro ⟨_, _, h3⟩; exact hhex h3)]
          have hhex' : pathExists fs (ospSplit name).1 = true := by
            cases hc : pathExists fs (ospSplit name).1 with
            | false => exact absurd hc hhex
            | true => rfl
          have hread : fs.read (ospSplit name).1 = none :=
            hfiles _ (ospSplit_fst_pref _)
          rw [mkdir_ok_of hex (pathExists_to_dirExists hhex' hread)]
          exact ⟨[name], rfl, List.mem_cons_self _ _, by
            intro d hd
            rcases List.mem_cons.mp hd with rfl | hd
            · exact List.prefix_refl _
            · simp at hd⟩

/-- Packaged form of the success lemma at the fuel `makedirs` supplies. -/
theorem makedirs_ok_exists {fs : FS} {name : String}
    (hex : pathExists fs name = false)
    (hlast : name.data.getLast? ≠ some '/')
    (hfiles : ∀ q : String, q.data <+: name.data → fs.read q = none)
    (hdot : ∀ q : String, q.data <+: name.data → (ospSplit q).2 ≠ ".") :
    ∃ new, makedirs fs name = .ok { dirs := new ++ fs.dirs, files := fs.files }
      ∧ name ∈ new ∧ ∀ d ∈ new, d.data <+: name.data :=
  makedirsAux_ok_exists (name.data.length + 1) fs name (by omega) hex hlast hfiles hdot

theorem ensureDir_of_exists {fs : FS} {dir : String} (h : pathExists fs dir = true) :
    ensureDir fs dir = .ok fs := by
  unfold ensureDir
  rw [if_pos h]

theorem ensureDir_of_not_exists {fs : FS} {dir : String}
    (h : pathExists fs dir = false) : ensureDir fs dir = makedirs fs dir := by
  unfold ensureDir
  rw [if_neg (by simp [h])]

theorem ensureDir_state (fs : FS) (dir : String) :
    (errState (ensureDir fs dir)).files = fs.files ∧
    ∃ new, (errState (ensureDir fs dir)).dirs = new ++ fs.dirs ∧
      ∀ d ∈ new, d.data <+: dir.data := by
  unfold ensureDir
  by_cases h : pathExists fs dir = true
  · rw [if_pos h]
    exact ⟨rfl, [], (List.nil_append _).symm, by simp⟩
  · rw [if_neg h]
    exact makedirsAux_state _ fs dir

/-! Trace lemmas for `copy2`, `copyFlavors`, `readFileE`, `goWrites` and `go`. -/

theorem copy2_some {fs : FS} {src c : String} (dst : String)
    (h : fs.read src = some c) : copy2 fs src dst = .ok (fs.write dst c) := by
  unfold copy2
  rw [h]

theorem copy2_none {fs : FS} {src : String} (dst : String) (h : fs.read src = none) :
    copy2 fs src dst = .error ("copy2: no such file: " ++ src, fs) := by
  unfold copy2
  rw [h]

theorem readFileE_ok_iff {fs : FS} {p t : String} :
    readFileE fs p = .ok t ↔ fs.read p = some t := by
  unfold readFileE
  cases h : fs.read p with
  | none => simp
  | some c => simp

theorem copyFlavors_cons (fs : FS) (short fr x : String) (xs : List String) :
    copyFlavors fs short fr (x :: xs)
      = match copy2 fs (short ++ x ++ ".jar") (fr ++ x ++ ".jar") with
        | .error e => .error e
        | .ok fs' => copyFlavors fs' short fr xs := rfl

theorem copyFlavors_flavors (fs : FS) (short fr : String) :
    copyFlavors fs short fr flavors =
      match copy2 fs (short ++ "" ++ ".jar") (fr ++ "" ++ ".jar") with
      | .error e => .error e
      | .ok fs1 =>
        match copy2 fs1 (short ++ "-sources" ++ ".jar") (fr ++ "-sources" ++ ".jar") with
        | .error e => .error e
        | .ok fs2 =>
          match copy2 fs2 (short ++ "-javadoc" ++ ".jar") (fr ++ "-javadoc" ++ ".jar") with
          | .error e => .error e
          | .ok fs3 => .ok fs3 := rfl

theorem copyFlavors_ok_elim {fs fsc : FS} {short fr : String}
    (h : copyFlavors fs short fr flavors = .ok fsc) :
    ∃ c1 c2 c3,
      fs.read (short ++ "" ++ ".jar") = some c1 ∧
      (fs.write (fr ++ "" ++ ".jar") c1).read (short ++ "-sources" ++ ".jar") = some c2 ∧
      ((fs.write (fr ++ "" ++ ".jar") c1).write (fr ++ "-sources" ++ ".jar") c2).read
          (short ++ "-javadoc" ++ ".jar") = some c3 ∧
      fsc = ((fs.write (fr ++ "" ++ ".jar") c1).write (fr ++ "-sources" ++ ".jar")
          c2).write (fr ++ "-javadoc" ++ ".jar") c3 := by
  rw [copyFlavors_flavors] at h
  cases h1 : fs.read (short ++ "" ++ ".jar") with
  | none =>
    rw [copy2_none _ h1] at h
    exact absurd h (by simp)
  | some c1 =>
    rw [copy2_some _ h1] at h
    dsimp only at h
    cases h2 : (fs.write (fr ++ "" ++ ".jar") c1).read (short ++ "-sources" ++ ".jar") with
    | none =>
      rw [copy2_none _ h2] at h
      exact absurd h (by simp)
    | some c2 =>
      rw [copy2_some _ h2] at h
      dsimp only at h
      cases h3 : ((fs.write (fr ++ "" ++ ".jar") c1).write (fr ++ "-sources" ++ ".jar")
          c2).read (short ++ "-javadoc" ++ ".jar") with
      | none =>
        rw [copy2_none _ h3] at h
        exact absurd h (by simp)
      | some c3 =>
        rw [copy2_some _ h3] at h
        dsimp only at h
        injection h with h'
        exact ⟨c1, c2, c3, rfl, h2, h3, h'.symm⟩

theorem go_ok_elim {env : Env} {root version pkg short long : String} {fs fs' : FS}
    (h : go env root version pkg short long fs = .ok fs') :
    ∃ fsd fsc tpl,
      ensureDir fs (versionDir root pkg long version) = .ok fsd ∧
      copyFlavors fsd short (fileRootOf root pkg long version) flavors = .ok fsc ∧
      fsc.read ("maven-" ++ short ++ ".xml") = some tpl ∧
      fs' = goWrites env root version pkg long tpl fsc := by
  unfold go at h
  cases h1 : ensureDir fs (versionDir root pkg long version) with
  | error e =>
    rw [h1] at h
    exact absurd h (by simp)
  | ok fsd =>
    rw [h1] at h
    dsimp only at h
    cases h2 : copyFlavors fsd short (fileRootOf root pkg long version) flavors with
    | error e =>
      rw [h2] at h
      exact absurd h (by simp)
    | ok fsc =>
      rw [h2] at h
      dsimp only at h
      cases h3 : readFileE fsc ("maven-" ++ short ++ ".xml") with
      | error e =>
        rw [h3] at h
        exact absurd h (by simp)
      | ok tpl =>
        rw [h3] at h
        dsimp only at h
        injection h with h'
        exact ⟨fsd, fsc, tpl, rfl, h2, readFileE_ok_iff.mp h3, h'.symm⟩

theorem read_write_cases (fs : FS) (p c q : String) :
    (fs.write p c).read q = fs.read q ∨ q = p := by
  by_cases h : q = p
  · exact Or.inr h
  · exact Or.inl (read_write_ne fs c h)

theorem copyFlavors_state (short fr : String) : ∀ (l : List String) (fs : FS),
    (errState (copyFlavors fs short fr l)).dirs = fs.dirs ∧
    ∀ q, (errState (copyFlavors fs short fr l)).read q ≠ fs.read q →
      ∃ x ∈ l, q = fr ++ x ++ ".jar" := by
  intro l
  induction l with
  | nil =>
    intro fs
    exact ⟨rfl, fun q hq => absurd rfl hq⟩
  | cons x xs ih =>
    intro fs
    rw [copyFlavors_cons]
    cases hr : fs.read (short ++ x ++ ".jar") with
    | none =>
      rw [copy2_none _ hr]
      dsimp only [errState]
      exact ⟨rfl, fun q hq => absurd rfl hq⟩
    | some c =>
      rw [copy2_some _ hr]
      dsimp only
      obtain ⟨hdirs, hreads⟩ := ih (fs.write (fr ++ x ++ ".jar") c)
      constructor
      · rw [hdirs]
        rfl
      · intro q hq
        rcases read_write_cases fs (fr ++ x ++ ".jar") c q with hc | hc
        · by_cases hne : (errState (copyFlavors (fs.write (fr ++ x ++ ".jar") c)
              short fr xs)).read q = (fs.write (fr ++ x ++ ".jar") c).read q
          · exact absurd (hne.trans hc) hq
          · obtain ⟨y, hy, hyq⟩ := hreads q hne
            exact ⟨y, List.mem_cons_of_mem _ hy, hyq⟩
        · exact ⟨x, List.mem_cons_self _ _, hc⟩

theorem readFileE_none {fs : FS} {p : String} (h : fs.read p = none) :
    readFileE fs p = .error ("open: no such file: " ++ p, fs) := by
  unfold readFileE
  rw [h]

theorem readFileE_some {fs : FS} {p t : String} (h : fs.read p = some t) :
    readFileE fs p = .ok t := by
  unfold readFileE
  rw [h]

theorem strAppend_data_ne_nil {a b : String} (hb : b.data ≠ []) :
    (a ++ b).data ≠ [] := by
  rw [String.data_append]
  intro h
  exact hb (List.append_eq_nil.mp h).2

theorem getLast?_strAppend {a b : String} (hb : b.data ≠ []) :
    (a ++ b).data.getLast? = b.data.getLast? := by
  rw [String.data_append, List.getLast?_append, List.getLast?_eq_getLast b.data hb]
  rfl

theorem leads_appendR {a b : String} (c : String) (h : a.data <+: b.data) :
    a.data <+: (b ++ c).data := by
  rw [String.data_append]
  exact List.IsPrefix.trans h (List.prefix_append _ _)

theorem leads_self_append (a b : String) : a.data <+: (a ++ b).data :=
  leads_appendR b (List.prefix_refl _)

theorem leads_versionDir (root pkg long version : String) :
    (root ++ pkg).data <+: (versionDir root pkg long version).data :=
  leads_appendR _ (leads_appendR _ (leads_self_append (root ++ pkg) long))

theorem leads_fileRoot (root pkg long version : String) :
    (root ++ pkg).data <+: (fileRootOf root pkg long version).data :=
  leads_appendR _ (leads_appendR _ (leads_versionDir root pkg long version))

theorem ospSplit_versionDir {root pkg long version : String} (hlong : long.data ≠ [])
    (hlast : long.data.getLast? ≠ some '/') (hver : '/' ∉ version.data) :
    ospSplit (versionDir root pkg long version) = (root ++ pkg ++ long, version) := by
  unfold versionDir
  apply ospSplit_concat
  · intro h0
    rw [String.data_append] at h0
    exact hlong (List.append_eq_nil.mp h0).2
  · rw [getLast?_strAppend hlong]
    exact hlast
  · exact hver

/-- The path of the regenerated metadata document written by `go`. -/
theorem metaPath_eq {root pkg long version : String} (hlong : long.data ≠ [])
    (hlast : long.data.getLast? ≠ some '/') (hver : '/' ∉ version.data) :
    ospJoin ((ospSplit (versionDir root pkg long version)).1) "maven-metadata.xml"
      = root ++ pkg ++ long ++ "/" ++ "maven-metadata.xml" := by
  rw [ospSplit_versionDir hlong hlast hver]
  have hp : (root ++ pkg ++ long : String) ≠ "" := by
    intro h0
    exact strAppend_data_ne_nil hlong (by rw [h0])
  rw [ospJoin_rel hp (by decide) (by decide)]
  rw [dirPref_of_last_ne (by rw [getLast?_strAppend hlong]; exact hlast)]

theorem leads_metaPath {root pkg long version : String} (hlong : long.data ≠ [])
    (hlast : long.data.getLast? ≠ some '/') (hver : '/' ∉ version.data) :
    (root ++ pkg).data <+: (ospJoin ((ospSplit (versionDir root pkg long
      version)).1) "maven-metadata.xml").data := by
  rw [metaPath_eq hlong hlast hver]
  exact leads_appendR _ (leads_appendR _ (leads_self_append (root ++ pkg) long))

/-- No path can lie both under the mongodb group tree and under the bson
group tree. -/
theorem not_both_leads {root x : String}
    (hm : (root ++ "/org/mongodb/").data <+: x.data)
    (hb : (root ++ "/org/bson/").data <+: x.data) : False := by
  rcases List.prefix_or_prefix_of_prefix hm hb with h | h
  · rw [String.data_append, String.data_append] at h
    have h2 := (List.prefix_append_right_inj root.data).mp h
    have h3 := List.isPrefixOf_iff_prefix.mpr h2
    rw [show (("/org/mongodb/" : String).data.isPrefixOf
      ("/org/bson/" : String).data) = false from by decide] at h3
    exact Bool.noConfusion h3
  · rw [String.data_append, String.data_append] at h
    have h2 := (List.prefix_append_right_inj root.data).mp h
    have h3 := List.isPrefixOf_iff_prefix.mpr h2
    rw [show (("/org/bson/" : String).data.isPrefixOf
      ("/org/mongodb/" : String).data) = false from by decide] at h3
    exact Bool.noConfusion h3

theorem goWrites_state (env : Env) (root version pkg long pomT : String) (fs : FS) :
    (goWrites env root version pkg long pomT fs).dirs = fs.dirs ∧
    ∀ q, (goWrites env root version pkg long pomT fs).read q ≠ fs.read q →
      q = fileRootOf root pkg long version ++ ".pom" ∨
      q = fileRootOf root pkg long version ++ ".jar.sha1" ∨
      q = ospJoin ((ospSplit (versionDir root pkg long version)).1)
          "maven-metadata.xml" := by
  constructor
  · rfl
  · intro q hq
    unfold goWrites at hq
    set W1 := fs.write (fileRootOf root pkg long version ++ ".pom")
      (pyReplace pomT "$VERSION" version) with hW1
    set W2 := W1.write (fileRootOf root pkg long version ++ ".jar.sha1")
      ((pySplit (sha1sumStdout env W1 (fileRootOf root pkg long version ++ ".jar")) ' ').headD
        "") with hW2
    rcases read_write_cases W2 (ospJoin ((ospSplit (versionDir root pkg long
        version)).1) "maven-metadata.xml")
        (env.pretty (build_metadata_xml env W2 ((ospSplit (versionDir root pkg long
          version)).1) long)) q with hc | hc
    · rw [hc] at hq
      rcases read_write_cases W1 (fileRootOf root pkg long version ++ ".jar.sha1")
          ((pySplit (sha1sumStdout env W1 (fileRootOf root pkg long version
            ++ ".jar")) ' ').headD "") q with hc2 | hc2
      · rw [hc2] at hq
        rcases read_write_cases fs (fileRootOf root pkg long version ++ ".pom")
            (pyReplace pomT "$VERSION" version) q with hc3 | hc3
        · rw [hc3] at hq
          exact absurd rfl hq
        · exact Or.inl hc3
      · exact Or.inr (Or.inl hc2)
    · exact Or.inr (Or.inr hc)

/-- Frame property of one `go` run, successful or not: the only file paths
whose contents can change lie under the artifact's group subtree, and the
directory list grows only by initial segments of the version directory's
path. -/
theorem go_frame (env : Env) (root version pkg short long : String) (fs : FS)
    (hlong : long.data ≠ []) (hlast : long.data.getLast? ≠ some '/')
    (hver : '/' ∉ version.data) :
    (∀ q : String, (errState (go env root version pkg short long fs)).read q
        ≠ fs.read q → (root ++ pkg).data <+: q.data) ∧
    (∃ new, (errState (go env root version pkg short long fs)).dirs = new ++ fs.dirs ∧
      ∀ d ∈ new, d.data <+: (versionDir root pkg long version).data) := by
  unfold go
  obtain ⟨hedf, newE, hedd, hednew⟩ := ensureDir_state fs (versionDir root pkg long version)
  cases h1 : ensureDir fs (versionDir root pkg long version) with
  | error e =>
    obtain ⟨msg, fsE⟩ := e
    rw [h1] at hedf hedd
    dsimp only [errState] at hedf hedd ⊢
    constructor
    · intro q hq
      exfalso
      apply hq
      show List.lookup q fsE.files = List.lookup q fs.files
      rw [hedf]
    · exact ⟨newE, hedd, hednew⟩
  | ok fsd =>
    rw [h1] at hedf hedd
    dsimp only [errState] at hedf hedd
    dsimp only
    have hread_d : ∀ q : String, fsd.read q = fs.read q := by
      intro q
      show List.lookup q fsd.files = List.lookup q fs.files
      rw [hedf]
    obtain ⟨hcfd, hcfr⟩ := copyFlavors_state short (fileRootOf root pkg long version)
      flavors fsd
    have hled_flavor : ∀ x ∈ flavors, (root ++ pkg).data
        <+: (fileRootOf root pkg long version ++ x ++ ".jar").data := by
      intro x _
      exact leads_appendR _ (leads_appendR _ (leads_fileRoot root pkg long version))
    cases h2 : copyFlavors fsd short (fileRootOf root pkg long version) flavors with
    | error e =>
      obtain ⟨msg, fsE⟩ := e
      rw [h2] at hcfd hcfr
      dsimp only [errState] at hcfd hcfr ⊢
      constructor
      · intro q hq
        by_cases hne : fsE.read q = fsd.read q
        · exact absurd (hne.trans (hread_d q)) hq
        · obtain ⟨x, hx, hxq⟩ := hcfr q hne
          rw [hxq]
          exact hled_flavor x hx
      · refine ⟨newE, ?_, hednew⟩
        rw [hcfd, hedd]
    | ok fsc =>
      rw [h2] at hcfd hcfr
      dsimp only [errState] at hcfd hcfr
      dsimp only
      have hread_c : ∀ q : String, fsc.read q ≠ fs.read q →
          (root ++ pkg).data <+: q.data := by
        intro q hq
        by_cases hne : fsc.read q = fsd.read q
        · exact absurd (hne.trans (hread_d q)) hq
        · obtain ⟨x, hx, hxq⟩ := hcfr q hne
          rw [hxq]
          exact hled_flavor x hx
      cases h3 : fsc.read ("maven-" ++ short ++ ".xml") with
      | none =>
        rw [readFileE_none h3]
        dsimp only [errState]
        refine ⟨hread_c, newE, ?_, hednew⟩
        rw [hcfd, hedd]
      | some tpl =>
        rw [readFileE_some h3]
        dsimp only [errState]
        obtain ⟨hgwd, hgwr⟩ := goWrites_state env root version pkg long tpl fsc
        constructor
        · intro q hq
          by_cases hne : (goWrites env root version pkg long tpl fsc).read q
              = fsc.read q
          · exact hread_c q (fun hc => hq (hne.trans hc))
          · rcases hgwr q hne with hq3 | hq3 | hq3
            · rw [hq3]
              exact leads_appendR _ (leads_fileRoot root pkg long version)
            · rw [hq3]
              exact leads_appendR _ (leads_fileRoot root pkg long version)
            · rw [hq3]
              exact leads_metaPath hlong hlast hver
        · refine ⟨newE, ?_, hednew⟩
          rw [hgwd, hcfd, hedd]

/-- Monotonicity of one `go` run: existing directories stay, and a path that
held a file still holds one afterwards. -/
theorem go_mono (env : Env) (root version pkg short long : String) (fs : FS) :
    (∀ x, x ∈ fs.dirs → x ∈ (errState (go env root version pkg short long fs)).dirs) ∧
    (∀ q, (fs.read q).isSome = true →
      ((errState (go env root version pkg short long fs)).read q).isSome = true) := by
  unfold go
  obtain ⟨hedf, newE, hedd, _⟩ := ensureDir_state fs (versionDir root pkg long version)
  cases h1 : ensureDir fs (versionDir root pkg long version) with
  | error e =>
    obtain ⟨msg, fsE⟩ := e
    rw [h1] at hedf hedd
    dsimp only [errState] at hedf hedd ⊢
    constructor
    · intro x hx
      rw [hedd]
      exact List.mem_append.mpr (Or.inr hx)
    · intro q hq
      show (List.lookup q fsE.files).isSome = true
      rw [hedf]
      exact hq
  | ok fsd =>
    rw [h1] at hedf hedd
    dsimp only [errState] at hedf hedd
    dsimp only
    have hdmem : ∀ x, x ∈ fs.dirs → x ∈ fsd.dirs := by
      intro x hx
      rw [hedd]
      exact List.mem_append.mpr (Or.inr hx)
    have hdread : ∀ q, (fs.read q).isSome = true → (fsd.read q).isSome = true := by
      intro q hq
      show (List.lookup q fsd.files).isSome = true
      rw [hedf]
      exact hq
    have hcf : ∀ (l : List String) (fsx : FS),
        (∀ x, x ∈ fsx.dirs → x ∈ (errState (copyFlavors fsx short
          (fileRootOf root pkg long version) l)).dirs) ∧
        (∀ q, (fsx.read q).isSome = true →
          ((errState (copyFlavors fsx short (fileRootOf root pkg long version)
            l)).read q).isSome = true) := by
      intro l
      induction l with
      | nil => exact fun fsx => ⟨fun x hx => hx, fun q hq => hq⟩
      | cons x xs ih =>
        intro fsx
        rw [copyFlavors_cons]
        cases hr : fsx.read (short ++ x ++ ".jar") with
        | none =>
          rw [copy2_none _ hr]
          exact ⟨fun y hy => hy, fun q hq => hq⟩
        | some c =>
          rw [copy2_some _ hr]
          dsimp only
          obtain ⟨ihd, ihr⟩ := ih (fsx.write (fileRootOf root pkg long version
            ++ x ++ ".jar") c)
          exact ⟨fun y hy => ihd y hy,
            fun q hq => ihr q (read_isSome_write fsx _ c hq)⟩
    obtain ⟨hcfd, hcfr⟩ := hcf flavors fsd
    cases h2 : copyFlavors fsd short (fileRootOf root pkg long version) flavors with
    | error e =>
      obtain ⟨msg, fsE⟩ := e
      rw [h2] at hcfd hcfr
      dsimp only [errState] at hcfd hcfr ⊢
      exact ⟨fun x hx => hcfd x (hdmem x hx), fun q hq => hcfr q (hdread q hq)⟩
    | ok fsc =>
      rw [h2] at hcfd hcfr
      dsimp only [errState] at hcfd hcfr
      dsimp only
      cases h3 : fsc.read ("maven-" ++ short ++ ".xml") with
      | none =>
        rw [readFileE_none h3]
        dsimp only [errState]
        exact ⟨fun x hx => hcfd x (hdmem x hx), fun q hq => hcfr q (hdread q hq)⟩
      | some tpl =>
        rw [readFileE_some h3]
        dsimp only [errState]
        constructor
        · intro x hx
          show x ∈ (goWrites env root version pkg long tpl fsc).dirs
          rw [(goWrites_state env root version pkg long tpl fsc).1]
          exact hcfd x (hdmem x hx)
        · intro q hq
          unfold goWrites
          exact read_isSome_write _ _ _ (read_isSome_write _ _ _
            (read_isSome_write _ _ _ (hcfr q (hdread q hq))))

theorem lookup_some_mem_keys : ∀ {l : List (String × String)} {q c : String},
    List.lookup q l = some c → q ∈ l.map Prod.fst := by
  intro l
  induction l with
  | nil =>
    intro q c h
    simp [List.lookup] at h
  | cons hd tl ih =>
    intro q c h
    obtain ⟨k, v⟩ := hd
    by_cases hqk : q = k
    · subst hqk
      exact List.mem_cons_self _ _
    · rw [lookup_cons_ne _ _ hqk] at h
      exact List.mem_cons_of_mem _ (ih h)

theorem pathExists_mono {fs fs' : FS}
    (hd : ∀ x, x ∈ fs.dirs → x ∈ fs'.dirs)
    (hf : ∀ q, (fs.read q).isSome = true → (fs'.read q).isSome = true)
    {p : String} (h : pathExists fs p = true) : pathExists fs' p = true := by
  unfold pathExists at h ⊢
  rcases Bool.or_eq_true_iff.mp h with h12 | h3
  · rcases Bool.or_eq_true_iff.mp h12 with h1 | h2
    · exact Bool.or_eq_true_iff.mpr (Or.inl (Bool.or_eq_true_iff.mpr (Or.inl
        (List.elem_iff.mpr (hd p (List.elem_iff.mp h1))))))
    · exact Bool.or_eq_true_iff.mpr (Or.inl (Bool.or_eq_true_iff.mpr
        (Or.inr (hf p h2))))
  · exact Bool.or_eq_true_iff.mpr (Or.inr h3)

/-- A path component can be the special name `"."` only when the path starts
with a dot or contains the two-character sequence slash-dot.  This lets the
no-dot-component side conditions be checked by computation on concrete
paths. -/
theorem split_tail_dot {q name : String} (hq : q.data <+: name.data)
    (h : (ospSplit q).2 = ".") :
    name.data.head? = some '.' ∨ strContains name "/." = true := by
  have htl : tailRun q.data = ['.'] := by
    have hd := congrArg String.data h
    rw [ospSplit_snd_data] at hd
    exact hd
  have htw : q.data.reverse.takeWhile (fun c => !(c == '/')) = ['.'] := by
    unfold tailRun at htl
    have := congrArg List.reverse htl
    rw [List.reverse_reverse] at this
    exact this
  obtain ⟨rest, hrev, hrest⟩ : ∃ rest, q.data.reverse = '.' :: rest ∧
      rest.takeWhile (fun c => !(c == '/')) = [] := by
    cases hl : q.data.reverse with
    | nil =>
      rw [hl] at htw
      simp [List.takeWhile] at htw
    | cons c cs =>
      rw [hl, List.takeWhile_cons] at htw
      by_cases hc : (!(c == '/')) = true
      · rw [if_pos hc] at htw
        injection htw with h1 h2
        exact ⟨cs, by rw [h1], h2⟩
      · rw [if_neg hc] at htw
        exact absurd htw (by simp)
  cases hrest2 : rest with
  | nil =>
    rw [hrest2] at hrev
    have hqd : q.data = ['.'] := by
      rw [← List.reverse_reverse q.data, hrev]
      rfl
    left
    obtain ⟨t, ht⟩ := hq
    rw [hqd] at ht
    rw [← ht]
    rfl
  | cons r rs =>
    rw [hrest2] at hrev hrest
    rw [List.takeWhile_cons] at hrest
    by_cases hr : (!(r == '/')) = true
    · rw [if_pos hr] at hrest
      exact absurd hrest (by simp)
    · have hr' : r = '/' := by
        simp at hr
        exact hr
      have hqd : q.data = rs.reverse ++ ['/', '.'] := by
        rw [← List.reverse_reverse q.data, hrev, hr']
        simp
      right
      rw [strContains_iff]
      obtain ⟨t, ht⟩ := hq
      refine ⟨['/', '.'] ++ t, ⟨rs.reverse, ?_⟩, ⟨t, rfl⟩⟩
      rw [← ht, hqd, List.append_assoc]

theorem head?_mem {l : List Char} {a : Char} (h : l.head? = some a) : a ∈ l := by
  cases l with
  | nil => simp at h
  | cons x xs =>
    simp at h
    exact h ▸ List.mem_cons_self _ _

theorem getLast?_mem {l : List Char} {a : Char} (h : l.getLast? = some a) : a ∈ l := by
  rw [List.getLast?_eq_head?_reverse] at h
  exact List.mem_reverse.mp (head?_mem h)

theorem ospSplit_snd_of_ends_slash {a long : String} (ha : a.data.getLast? = some '/')
    (hlong : long.data ≠ []) (hlongs : '/' ∉ long.data) :
    (ospSplit (a ++ long)).2 = long := by
  rw [strEq_iff, ospSplit_snd_data, String.data_append]
  exact tailRun_append ha (fun c hc hceq => hlongs (hceq ▸ hc))

theorem isEmpty_append_cons (l1 : List Char) (c : Char) (l2 : List Char) :
    (l1 ++ c :: l2).isEmpty = false := by
  cases l1 <;> rfl

/-- Reading back the metadata file just written by `goWrites`. -/
theorem goWrites_read_meta (env : Env) (root version pkg long pomT : String)
    (fs : FS) (hlong : long.data ≠ []) (hlast : long.data.getLast? ≠ some '/')
    (hver : '/' ∉ version.data) :
    (goWrites env root version pkg long pomT fs).read
        (root ++ pkg ++ long ++ "/" ++ "maven-metadata.xml")
      = some (env.pretty (build_metadata_xml env
          ((fs.write (fileRootOf root pkg long version ++ ".pom")
              (pyReplace pomT "$VERSION" version)).write
            (fileRootOf root pkg long version ++ ".jar.sha1")
            ((pySplit (sha1sumStdout env
                (fs.write (fileRootOf root pkg long version ++ ".pom")
                  (pyReplace pomT "$VERSION" version))
                (fileRootOf root pkg long version ++ ".jar")) ' ').headD ""))
          ((ospSplit (versionDir root pkg long version)).1) long)) := by
  simp only [goWrites]
  rw [← metaPath_eq hlong hlast hver, read_write_self]

/-! String-append arithmetic used to separate the file paths of a run. -/

theorem strAppend_assoc (a b c : String) : (a ++ b) ++ c = a ++ (b ++ c) := by
  rw [strEq_iff]
  simp [String.data_append]

theorem strAppend_cancel_ne {a b c : String} (h : b ≠ c) : a ++ b ≠ a ++ c := by
  intro h0
  apply h
  have hd := congrArg String.data h0
  rw [String.data_append, String.data_append] at hd
  exact strEq_iff.mpr (List.append_cancel_left hd)

theorem strAppend3_ne (a : String) {x y z w : String} (h : x ++ z ≠ y ++ w) :
    a ++ x ++ z ≠ a ++ y ++ w := by
  rw [strAppend_assoc, strAppend_assoc]
  exact strAppend_cancel_ne h

/-- Two appended paths whose final components end in different characters are
different. -/
theorem ne_of_last_ne {a b c d : String} (hb : b.data ≠ []) (hd : d.data ≠ [])
    (h : b.data.getLast? ≠ d.data.getLast?) : a ++ b ≠ c ++ d := by
  intro h0
  have h1 := congrArg (fun s : String => s.data.getLast?) h0
  dsimp only at h1
  rw [getLast?_strAppend hb, getLast?_strAppend hd] at h1
  exact h h1

theorem strAppend_empty_mid (a b : String) : a ++ "" ++ b = a ++ b := by
  rw [strAppend_assoc]
  rfl

theorem mem_strAppend_r {c : Char} {b : String} (a : String) (h : c ∈ b.data) :
    c ∈ (a ++ b).data := by
  rw [String.data_append]
  exact List.mem_append.mpr (Or.inr h)

theorem mem_strAppend_l {c : Char} {a : String} (h : c ∈ a.data) (b : String) :
    c ∈ (a ++ b).data := by
  rw [String.data_append]
  exact List.mem_append.mpr (Or.inl h)

theorem slash_mem_fileRoot (root pkg long version : String) :
    '/' ∈ (fileRootOf root pkg long version).data :=
  mem_strAppend_l (mem_strAppend_r _ (by decide)) _

/-- A path led by an appended prefix whose second part holds a slash holds a
slash itself. -/
theorem led_slash {a b q : String} (hb : '/' ∈ b.data)
    (h : (a ++ b).data <+: q.data) : '/' ∈ q.data := by
  obtain ⟨t, ht⟩ := h
  rw [← ht]
  exact List.mem_append.mpr (Or.inl (mem_strAppend_r a hb))

theorem ne_of_slash_free {q p : String} (hq : '/' ∉ q.data) (hp : '/' ∈ p.data) :
    q ≠ p := fun h => hq (h ▸ hp)

theorem pathExists_of_dirMem {fs : FS} {p : String} (h : p ∈ fs.dirs) :
    pathExists fs p = true := by
  unfold pathExists
  rw [show fs.dirs.contains p = true from List.elem_iff.mpr h]
  rfl

theorem dirPref_pref (p : String) : p.data <+: (dirPref p).data := by
  unfold dirPref
  by_cases h : p.data.getLast? = some '/'
  · rw [if_pos h]
  · rw [if_neg h]
    exact leads_self_append p "/"

/-! Reading back the files written by `goWrites` one by one. -/

theorem goWrites_read_other (env : Env) (root version pkg long pomT : String)
    (fs : FS) {q : String}
    (h1 : q ≠ fileRootOf root pkg long version ++ ".pom")
    (h2 : q ≠ fileRootOf root pkg long version ++ ".jar.sha1")
    (h3 : q ≠ ospJoin ((ospSplit (versionDir root pkg long version)).1)
      "maven-metadata.xml") :
    (goWrites env root version pkg long pomT fs).read q = fs.read q := by
  simp only [goWrites]
  rw [read_write_ne _ _ h3, read_write_ne _ _ h2, read_write_ne _ _ h1]

theorem goWrites_read_pom (env : Env) (root version pkg long pomT : String)
    (fs : FS) (hlong : long.data ≠ []) (hlast : long.data.getLast? ≠ some '/')
    (hver : '/' ∉ version.data) :
    (goWrites env root version pkg long pomT fs).read
        (fileRootOf root pkg long version ++ ".pom")
      = some (pyReplace pomT "$VERSION" version) := by
  have hne1 : fileRootOf root pkg long version ++ ".pom"
      ≠ ospJoin ((ospSplit (versionDir root pkg long version)).1)
          "maven-metadata.xml" := by
    rw [metaPath_eq hlong hlast hver]
    exact ne_of_last_ne (by decide) (by decide) (by decide)
  have hne2 : fileRootOf root pkg long version ++ ".pom"
      ≠ fileRootOf root pkg long version ++ ".jar.sha1" :=
    ne_of_last_ne (by decide) (by decide) (by decide)
  simp only [goWrites]
  rw [read_write_ne _ _ hne1, read_write_ne _ _ hne2, read_write_self]

theorem goWrites_read_sha (env : Env) (root version pkg long pomT : String)
    (fs : FS) (hlong : long.data ≠ []) (hlast : long.data.getLast? ≠ some '/')
    (hver : '/' ∉ version.data) :
    (goWrites env root version pkg long pomT fs).read
        (fileRootOf root pkg long version ++ ".jar.sha1")
      = some ((pySplit (sha1sumStdout env
          (fs.write (fileRootOf root pkg long version ++ ".pom")
            (pyReplace pomT "$VERSION" version))
          (fileRootOf root pkg long version ++ ".jar")) ' ').headD "") := by
  have hne1 : fileRootOf root pkg long version ++ ".jar.sha1"
      ≠ ospJoin ((ospSplit (versionDir root pkg long version)).1)
          "maven-metadata.xml" := by
    rw [metaPath_eq hlong hlast hver]
    exact ne_of_last_ne (by decide) (by decide) (by decide)
  simp only [goWrites]
  rw [read_write_ne _ _ hne1, read_write_self]

/-- Reading the primary jar back through the three flavor copies. -/
theorem copyChain_read_first (fs : FS) (fr c1 c2 c3 : String) :
    (((fs.write (fr ++ "" ++ ".jar") c1).write (fr ++ "-sources" ++ ".jar")
        c2).write (fr ++ "-javadoc" ++ ".jar") c3).read (fr ++ "" ++ ".jar")
      = some c1 := by
  rw [read_write_ne _ _ (strAppend3_ne fr (by decide)),
    read_write_ne _ _ (strAppend3_ne fr (by decide)), read_write_self]

/-! The version entries depend only on the directory list. -/

theorem metadataVersions_shift {fs1 fs2 : FS} {p : String} (hp : p ≠ "")
    (newD : List String) (hd : fs1.dirs = newD ++ fs2.dirs)
    (hnew : ∀ d ∈ newD, childName p d = none) :
    metadataVersions fs1 p = metadataVersions fs2 p := by
  have h1 : metadataVersions { dirs := newD ++ fs2.dirs, files := fs1.files } p
      = metadataVersions fs2 p := metadataVersions_prepend newD fs1.files hp hnew
  have h2 : fs1 = { dirs := newD ++ fs2.dirs, files := fs1.files } := by
    obtain ⟨d1, f1⟩ := fs1
    simp only at hd ⊢
    rw [hd]
  rw [h2] at h1 ⊢
  exact h1

theorem metadataVersions_congr_dirs {fs1 fs2 : FS} {p : String} (hp : p ≠ "")
    (hd : fs1.dirs = fs2.dirs) :
    metadataVersions fs1 p = metadataVersions fs2 p :=
  metadataVersions_shift hp [] (by rw [List.nil_append, hd]) (by simp)

theorem copyChain_read_sources (fs : FS) (fr c1 c2 c3 : String) :
    (((fs.write (fr ++ "" ++ ".jar") c1).write (fr ++ "-sources" ++ ".jar")
        c2).write (fr ++ "-javadoc" ++ ".jar") c3).read (fr ++ "-sources" ++ ".jar")
      = some c2 := by
  rw [read_write_ne _ _ (strAppend3_ne fr (by decide)), read_write_self]

theorem copyChain_read_javadoc (fs : FS) (fr c1 c2 c3 : String) :
    (((fs.write (fr ++ "" ++ ".jar") c1).write (fr ++ "-sources" ++ ".jar")
        c2).write (fr ++ "-javadoc" ++ ".jar") c3).read (fr ++ "-javadoc" ++ ".jar")
      = some c3 :=
  read_write_self _ _ _

/-- A whole `go` run never changes a file whose path holds no slash, the
locally built jars and templates among them. -/
theorem go_preserves_slashfree (env : Env) (root version pkg short long : String)
    (fs : FS) (hlong : long.data ≠ []) (hlast : long.data.getLast? ≠ some '/')
    (hver : '/' ∉ version.data) (hpkgslash : '/' ∈ pkg.data)
    {q : String} (hq : '/' ∉ q.data) :
    (errState (go env root version pkg short long fs)).read q = fs.read q := by
  by_cases hc : (errState (go env root version pkg short long fs)).read q
      = fs.read q
  · exact hc
  · have hled := (go_frame env root version pkg short long fs hlong hlast
      hver).1 q hc
    exact absurd (led_slash hpkgslash hled) hq

/-- The bson run never changes a path under the mongodb group tree. -/
theorem goB_preserves_mongodb (env : Env) (root version : String) (fs : FS)
    (hver : '/' ∉ version.data) {q : String}
    (hq : (root ++ "/org/mongodb/").data <+: q.data) :
    (errState (go env root version "/org/bson/" "bson" "bson" fs)).read q
      = fs.read q := by
  by_cases hc : (errState (go env root version "/org/bson/" "bson" "bson"
      fs)).read q = fs.read q
  · exact hc
  · exact absurd ((go_frame env root version "/org/bson/" "bson" "bson" fs
      (by decide) (by decide) hver).1 q hc) (fun hb => not_both_leads hq hb)

/-- A second `go` run over a state that already holds every file the run
would write, with the same contents, succeeds and leaves the state literally
unchanged. -/
theorem go_noop {env : Env} {root version pkg short long : String} {F : FS}
    {cA cB cC tpl : String}
    (hexd : pathExists F (versionDir root pkg long version) = true)
    (hsA : F.read (short ++ "" ++ ".jar") = some cA)
    (hsB : F.read (short ++ "-sources" ++ ".jar") = some cB)
    (hsC : F.read (short ++ "-javadoc" ++ ".jar") = some cC)
    (hdA : F.read (fileRootOf root pkg long version ++ "" ++ ".jar") = some cA)
    (hdB : F.read (fileRootOf root pkg long version ++ "-sources" ++ ".jar")
      = some cB)
    (hdC : F.read (fileRootOf root pkg long version ++ "-javadoc" ++ ".jar")
      = some cC)
    (htpl : F.read ("maven-" ++ short ++ ".xml") = some tpl)
    (hsha : ∀ s : String, ' ' ∉ (env.sha1hex s).data)
    (hpom : F.read (fileRootOf root pkg long version ++ ".pom")
      = some (pyReplace tpl "$VERSION" version))
    (hshaF : F.read (fileRootOf root pkg long version ++ ".jar.sha1")
      = some (env.sha1hex cA))
    (hmeta : F.read (ospJoin ((ospSplit (versionDir root pkg long version)).1)
        "maven-metadata.xml")
      = some (env.pretty (build_metadata_xml env F
          ((ospSplit (versionDir root pkg long version)).1) long))) :
    go env root version pkg short long F = .ok F := by
  have hcf : copyFlavors F short (fileRootOf root pkg long version) flavors
      = .ok F := by
    rw [copyFlavors_flavors]
    rw [copy2_some _ hsA, write_noop hdA]
    dsimp only
    rw [copy2_some _ hsB, write_noop hdB]
    dsimp only
    rw [copy2_some _ hsC, write_noop hdC]
  have hjar : F.read (fileRootOf root pkg long version ++ ".jar") = some cA := by
    rw [← strAppend_empty_mid (fileRootOf root pkg long version) ".jar"]
    exact hdA
  have hW : goWrites env root version pkg long tpl F = F := by
    simp only [goWrites]
    rw [write_noop hpom]
    rw [show sha1sumStdout env F (fileRootOf root pkg long version ++ ".jar")
        = env.sha1hex cA ++ "  "
          ++ (fileRootOf root pkg long version ++ ".jar") ++ "\n" from by
      unfold sha1sumStdout
      rw [hjar]]
    rw [sha_extract (hsha cA)]
    rw [write_noop hshaF]
    rw [write_noop hmeta]
  unfold go
  rw [ensureDir_of_exists hexd]
  dsimp only
  rw [hcf]
  dsimp only
  rw [readFileE_some htpl]
  dsimp only
  rw [hW]

/-- After one successful publish of both artifacts, publishing each artifact
again from the resulting state succeeds and leaves the state literally
unchanged. -/
theorem runAgain_ok (env : Env) (root v : String) (fs : FS)
    (hver : '/' ∉ v.data)
    (hsha : ∀ s : String, ' ' ∉ (env.sha1hex s).data)
    (hdotM : ∀ q : String,
      q.data <+: (versionDir root "/org/mongodb/" "mongo-java-driver" v).data → (ospSplit q).2 ≠ ".")
    (hdotB : ∀ q : String,
      q.data <+: (versionDir root "/org/bson/" "bson" v).data → (ospSplit q).2 ≠ ".")
    {F1 F2 : FS}
    (hg1 : go env root v "/org/mongodb/" "mongo" "mongo-java-driver" fs = .ok F1)
    (hg2 : go env root v "/org/bson/" "bson" "bson" F1 = .ok F2) :
    go env root v "/org/mongodb/" "mongo" "mongo-java-driver" F2 = .ok F2
    ∧ go env root v "/org/bson/" "bson" "bson" F2 = .ok F2 := by
  obtain ⟨fsd1, fsc1, tplM, e1, c1e, t1, hF1⟩ := go_ok_elim hg1
  obtain ⟨cM1, cM2, cM3, hrM1, hrM2, hrM3, hfsc1⟩ := copyFlavors_ok_elim c1e
  obtain ⟨fsd2, fsc2, tplB, e2, c2e, t2, hF2⟩ := go_ok_elim hg2
  obtain ⟨cB1, cB2, cB3, hrB1, hrB2, hrB3, hfsc2⟩ := copyFlavors_ok_elim c2e
  obtain ⟨hedf1, new1, hedd1, hednew1⟩ := ensureDir_state fs (versionDir root "/org/mongodb/" "mongo-java-driver" v)
  rw [e1] at hedf1 hedd1
  dsimp only [errState] at hedf1 hedd1
  obtain ⟨hedf2, new2, hedd2, hednew2⟩ := ensureDir_state F1 (versionDir root "/org/bson/" "bson" v)
  rw [e2] at hedf2 hedd2
  dsimp only [errState] at hedf2 hedd2
  have hfsd1r : ∀ q, fsd1.read q = fs.read q := fun q =>
    show List.lookup q fsd1.files = List.lookup q fs.files from by rw [hedf1]
  have hfsd2r : ∀ q, fsd2.read q = F1.read q := fun q =>
    show List.lookup q fsd2.files = List.lookup q F1.files from by rw [hedf2]
  have hfsc1d : fsc1.dirs = fsd1.dirs := by
    have h := (copyFlavors_state "mongo" (fileRootOf root "/org/mongodb/" "mongo-java-driver" v) flavors fsd1).1
    rw [c1e] at h
    exact h
  have hfsc2d : fsc2.dirs = fsd2.dirs := by
    have h := (copyFlavors_state "bson" (fileRootOf root "/org/bson/" "bson" v) flavors fsd2).1
    rw [c2e] at h
    exact h
  have hF1d : F1.dirs = fsc1.dirs := by
    rw [hF1]
    exact (goWrites_state env root v "/org/mongodb/" "mongo-java-driver" tplM fsc1).1
  have hF2d : F2.dirs = fsc2.dirs := by
    rw [hF2]
    exact (goWrites_state env root v "/org/bson/" "bson" tplB fsc2).1
  have hgo1sf : ∀ q : String, ('/' : Char) ∉ q.data → F1.read q = fs.read q := by
    intro q hq
    have h := go_preserves_slashfree env root v "/org/mongodb/" "mongo"
      "mongo-java-driver" fs (by decide) (by decide) hver (by decide) hq
    rw [hg1] at h
    exact h
  have hgo2sf : ∀ q : String, ('/' : Char) ∉ q.data → F2.read q = F1.read q := by
    intro q hq
    have h := go_preserves_slashfree env root v "/org/bson/" "bson" "bson" F1
      (by decide) (by decide) hver (by decide) hq
    rw [hg2] at h
    exact h
  have hsf : ∀ q : String, ('/' : Char) ∉ q.data → F2.read q = fs.read q :=
    fun q hq => (hgo2sf q hq).trans (hgo1sf q hq)
  have hgo2M : ∀ q : String, (root ++ "/org/mongodb/").data <+: q.data →
      F2.read q = F1.read q := by
    intro q hq
    have h := goB_preserves_mongodb env root v F1 hver hq
    rw [hg2] at h
    exact h
  have hslashM : ∀ x : String, ('/' : Char) ∈ ((fileRootOf root "/org/mongodb/" "mongo-java-driver" v) ++ x ++ ".jar").data :=
    fun x => mem_strAppend_l (mem_strAppend_l
      (slash_mem_fileRoot root "/org/mongodb/" "mongo-java-driver" v) x) ".jar"
  have hslashB : ∀ x : String, ('/' : Char) ∈ ((fileRootOf root "/org/bson/" "bson" v) ++ x ++ ".jar").data :=
    fun x => mem_strAppend_l (mem_strAppend_l
      (slash_mem_fileRoot root "/org/bson/" "bson" v) x) ".jar"
  have hsM1 : fs.read ("mongo" ++ "" ++ ".jar") = some cM1 := by
    rw [← hfsd1r]
    exact hrM1
  have hsM2 : fs.read ("mongo" ++ "-sources" ++ ".jar") = some cM2 := by
    rw [read_write_ne _ _ (ne_of_slash_free (by decide) (hslashM ""))] at hrM2
    rw [← hfsd1r]
    exact hrM2
  have hsM3 : fs.read ("mongo" ++ "-javadoc" ++ ".jar") = some cM3 := by
    rw [read_write_ne _ _ (ne_of_slash_free (by decide) (hslashM "-sources")),
      read_write_ne _ _ (ne_of_slash_free (by decide) (hslashM ""))] at hrM3
    rw [← hfsd1r]
    exact hrM3
  have hsB1 : F1.read ("bson" ++ "" ++ ".jar") = some cB1 := by
    rw [← hfsd2r]
    exact hrB1
  have hsB2 : F1.read ("bson" ++ "-sources" ++ ".jar") = some cB2 := by
    rw [read_write_ne _ _ (ne_of_slash_free (by decide) (hslashB ""))] at hrB2
    rw [← hfsd2r]
    exact hrB2
  have hsB3 : F1.read ("bson" ++ "-javadoc" ++ ".jar") = some cB3 := by
    rw [read_write_ne _ _ (ne_of_slash_free (by decide) (hslashB "-sources")),
      read_write_ne _ _ (ne_of_slash_free (by decide) (hslashB ""))] at hrB3
    rw [← hfsd2r]
    exact hrB3
  have hsM1F : F2.read ("mongo" ++ "" ++ ".jar") = some cM1 := by
    rw [hsf ("mongo" ++ "" ++ ".jar") (by decide)]
    exact hsM1
  have hsM2F : F2.read ("mongo" ++ "-sources" ++ ".jar") = some cM2 := by
    rw [hsf ("mongo" ++ "-sources" ++ ".jar") (by decide)]
    exact hsM2
  have hsM3F : F2.read ("mongo" ++ "-javadoc" ++ ".jar") = some cM3 := by
    rw [hsf ("mongo" ++ "-javadoc" ++ ".jar") (by decide)]
    exact hsM3
  have hsB1F : F2.read ("bson" ++ "" ++ ".jar") = some cB1 := by
    rw [hgo2sf ("bson" ++ "" ++ ".jar") (by decide)]
    exact hsB1
  have hsB2F : F2.read ("bson" ++ "-sources" ++ ".jar") = some cB2 := by
    rw [hgo2sf ("bson" ++ "-sources" ++ ".jar") (by decide)]
    exact hsB2
  have hsB3F : F2.read ("bson" ++ "-javadoc" ++ ".jar") = some cB3 := by
    rw [hgo2sf ("bson" ++ "-javadoc" ++ ".jar") (by decide)]
    exact hsB3
  have hledM : ∀ x : String,
      (root ++ "/org/mongodb/").data <+: ((fileRootOf root "/org/mongodb/" "mongo-java-driver" v) ++ x ++ ".jar").data :=
    fun x => leads_appendR _ (leads_appendR _
      (leads_fileRoot root "/org/mongodb/" "mongo-java-driver" v))
  have hjarpomM : ∀ x : String, (fileRootOf root "/org/mongodb/" "mongo-java-driver" v) ++ x ++ ".jar" ≠ (fileRootOf root "/org/mongodb/" "mongo-java-driver" v) ++ ".pom" :=
    fun x => ne_of_last_ne (by decide) (by decide) (by decide)
  have hjarshaM : ∀ x : String, (fileRootOf root "/org/mongodb/" "mongo-java-driver" v) ++ x ++ ".jar" ≠ (fileRootOf root "/org/mongodb/" "mongo-java-driver" v) ++ ".jar.sha1" :=
    fun x => ne_of_last_ne (by decide) (by decide) (by decide)
  have hjarmetaM : ∀ x : String, (fileRootOf root "/org/mongodb/" "mongo-java-driver" v) ++ x ++ ".jar"
      ≠ ospJoin ((ospSplit (versionDir root "/org/mongodb/" "mongo-java-driver" v)).1) "maven-metadata.xml" := by
    intro x
    rw [metaPath_eq (by decide) (by decide) hver]
    exact ne_of_last_ne (by decide) (by decide) (by decide)
  have hjarpomB : ∀ x : String, (fileRootOf root "/org/bson/" "bson" v) ++ x ++ ".jar" ≠ (fileRootOf root "/org/bson/" "bson" v) ++ ".pom" :=
    fun x => ne_of_last_ne (by decide) (by decide) (by decide)
  have hjarshaB : ∀ x : String, (fileRootOf root "/org/bson/" "bson" v) ++ x ++ ".jar" ≠ (fileRootOf root "/org/bson/" "bson" v) ++ ".jar.sha1" :=
    fun x => ne_of_last_ne (by decide) (by decide) (by decide)
  have hjarmetaB : ∀ x : String, (fileRootOf root "/org/bson/" "bson" v) ++ x ++ ".jar"
      ≠ ospJoin ((ospSplit (versionDir root "/org/bson/" "bson" v)).1) "maven-metadata.xml" := by
    intro x
    rw [metaPath_eq (by decide) (by decide) hver]
    exact ne_of_last_ne (by decide) (by decide) (by decide)
  have hfscM1 : fsc1.read ((fileRootOf root "/org/mongodb/" "mongo-java-driver" v) ++ "" ++ ".jar") = some cM1 := by
    rw [hfsc1]
    exact copyChain_read_first fsd1 (fileRootOf root "/org/mongodb/" "mongo-java-driver" v) cM1 cM2 cM3
  have hfscM2 : fsc1.read ((fileRootOf root "/org/mongodb/" "mongo-java-driver" v) ++ "-sources" ++ ".jar") = some cM2 := by
    rw [hfsc1]
    exact copyChain_read_sources fsd1 (fileRootOf root "/org/mongodb/" "mongo-java-driver" v) cM1 cM2 cM3
  have hfscM3 : fsc1.read ((fileRootOf root "/org/mongodb/" "mongo-java-driver" v) ++ "-javadoc" ++ ".jar") = some cM3 := by
    rw [hfsc1]
    exact copyChain_read_javadoc fsd1 (fileRootOf root "/org/mongodb/" "mongo-java-driver" v) cM1 cM2 cM3
  have hfscB1 : fsc2.read ((fileRootOf root "/org/bson/" "bson" v) ++ "" ++ ".jar") = some cB1 := by
    rw [hfsc2]
    exact copyChain_read_first fsd2 (fileRootOf root "/org/bson/" "bson" v) cB1 cB2 cB3
  have hfscB2 : fsc2.read ((fileRootOf root "/org/bson/" "bson" v) ++ "-sources" ++ ".jar") = some cB2 := by
    rw [hfsc2]
    exact copyChain_read_sources fsd2 (fileRootOf root "/org/bson/" "bson" v) cB1 cB2 cB3
  have hfscB3 : fsc2.read ((fileRootOf root "/org/bson/" "bson" v) ++ "-javadoc" ++ ".jar") = some cB3 := by
    rw [hfsc2]
    exact copyChain_read_javadoc fsd2 (fileRootOf root "/org/bson/" "bson" v) cB1 cB2 cB3
  have hdM1 : F2.read ((fileRootOf root "/org/mongodb/" "mongo-java-driver" v) ++ "" ++ ".jar") = some cM1 := by
    rw [hgo2M ((fileRootOf root "/org/mongodb/" "mongo-java-driver" v) ++ "" ++ ".jar") (hledM ""), hF1,
      goWrites_read_other env root v "/org/mongodb/" "mongo-java-driver" tplM
        fsc1 (hjarpomM "") (hjarshaM "") (hjarmetaM "")]
    exact hfscM1
  have hdM2 : F2.read ((fileRootOf root "/org/mongodb/" "mongo-java-driver" v) ++ "-sources" ++ ".jar") = some cM2 := by
    rw [hgo2M ((fileRootOf root "/org/mongodb/" "mongo-java-driver" v) ++ "-sources" ++ ".jar") (hledM "-sources"), hF1,
      goWrites_read_other env root v "/org/mongodb/" "mongo-java-driver" tplM
        fsc1 (hjarpomM "-sources") (hjarshaM "-sources") (hjarmetaM "-sources")]
    exact hfscM2
  have hdM3 : F2.read ((fileRootOf root "/org/mongodb/" "mongo-java-driver" v) ++ "-javadoc" ++ ".jar") = some cM3 := by
    rw [hgo2M ((fileRootOf root "/org/mongodb/" "mongo-java-driver" v) ++ "-javadoc" ++ ".jar") (hledM "-javadoc"), hF1,
      goWrites_read_other env root v "/org/mongodb/" "mongo-java-driver" tplM
        fsc1 (hjarpomM "-javadoc") (hjarshaM "-javadoc") (hjarmetaM "-javadoc")]
    exact hfscM3
  have hdB1 : F2.read ((fileRootOf root "/org/bson/" "bson" v) ++ "" ++ ".jar") = some cB1 := by
    rw [hF2,
      goWrites_read_other env root v "/org/bson/" "bson" tplB fsc2
        (hjarpomB "") (hjarshaB "") (hjarmetaB "")]
    exact hfscB1
  have hdB2 : F2.read ((fileRootOf root "/org/bson/" "bson" v) ++ "-sources" ++ ".jar") = some cB2 := by
    rw [hF2,
      goWrites_read_other env root v "/org/bson/" "bson" tplB fsc2
        (hjarpomB "-sources") (hjarshaB "-sources") (hjarmetaB "-sources")]
    exact hfscB2
  have hdB3 : F2.read ((fileRootOf root "/org/bson/" "bson" v) ++ "-javadoc" ++ ".jar") = some cB3 := by
    rw [hF2,
      goWrites_read_other env root v "/org/bson/" "bson" tplB fsc2
        (hjarpomB "-javadoc") (hjarshaB "-javadoc") (hjarmetaB "-javadoc")]
    exact hfscB3
  have htplMfs : fs.read ("maven-" ++ "mongo" ++ ".xml") = some tplM := by
    have h8 := (copyFlavors_state "mongo" (fileRootOf root "/org/mongodb/" "mongo-java-driver" v) flavors fsd1).2
    rw [c1e] at h8
    by_cases hc : fsc1.read ("maven-" ++ "mongo" ++ ".xml")
        = fsd1.read ("maven-" ++ "mongo" ++ ".xml")
    · rw [← hfsd1r, ← hc]
      exact t1
    · exfalso
      obtain ⟨x, _, hxq⟩ := h8 _ hc
      exact ne_of_last_ne (by decide) (by decide) (by decide) hxq
  have htplMF : F2.read ("maven-" ++ "mongo" ++ ".xml") = some tplM := by
    rw [hsf ("maven-" ++ "mongo" ++ ".xml") (by decide)]
    exact htplMfs
  have htplBfs : F1.read ("maven-" ++ "bson" ++ ".xml") = some tplB := by
    have h8 := (copyFlavors_state "bson" (fileRootOf root "/org/bson/" "bson" v) flavors fsd2).2
    rw [c2e] at h8
    by_cases hc : fsc2.read ("maven-" ++ "bson" ++ ".xml")
        = fsd2.read ("maven-" ++ "bson" ++ ".xml")
    · rw [← hfsd2r, ← hc]
      exact t2
    · exfalso
      obtain ⟨x, _, hxq⟩ := h8 _ hc
      exact ne_of_last_ne (by decide) (by decide) (by decide) hxq
  have htplBF : F2.read ("maven-" ++ "bson" ++ ".xml") = some tplB := by
    rw [hgo2sf ("maven-" ++ "bson" ++ ".xml") (by decide)]
    exact htplBfs
  have hpomM : F2.read ((fileRootOf root "/org/mongodb/" "mongo-java-driver" v) ++ ".pom") = some (pyReplace tplM "$VERSION" v) := by
    rw [hgo2M ((fileRootOf root "/org/mongodb/" "mongo-java-driver" v) ++ ".pom") (leads_appendR _
        (leads_fileRoot root "/org/mongodb/" "mongo-java-driver" v)), hF1]
    exact goWrites_read_pom env root v "/org/mongodb/" "mongo-java-driver" tplM
      fsc1 (by decide) (by decide) hver
  have hpomB : F2.read ((fileRootOf root "/org/bson/" "bson" v) ++ ".pom") = some (pyReplace tplB "$VERSION" v) := by
    rw [hF2]
    exact goWrites_read_pom env root v "/org/bson/" "bson" tplB fsc2
      (by decide) (by decide) hver
  have hfscMjar : fsc1.read ((fileRootOf root "/org/mongodb/" "mongo-java-driver" v) ++ ".jar") = some cM1 := by
    rw [← strAppend_empty_mid (fileRootOf root "/org/mongodb/" "mongo-java-driver" v) ".jar"]
    exact hfscM1
  have hfscBjar : fsc2.read ((fileRootOf root "/org/bson/" "bson" v) ++ ".jar") = some cB1 := by
    rw [← strAppend_empty_mid (fileRootOf root "/org/bson/" "bson" v) ".jar"]
    exact hfscB1
  have hshaM : F2.read ((fileRootOf root "/org/mongodb/" "mongo-java-driver" v) ++ ".jar.sha1") = some (env.sha1hex cM1) := by
    rw [hgo2M ((fileRootOf root "/org/mongodb/" "mongo-java-driver" v) ++ ".jar.sha1") (leads_appendR _
        (leads_fileRoot root "/org/mongodb/" "mongo-java-driver" v)), hF1,
      goWrites_read_sha env root v "/org/mongodb/" "mongo-java-driver" tplM fsc1
        (by decide) (by decide) hver]
    rw [show sha1sumStdout env (fsc1.write ((fileRootOf root "/org/mongodb/" "mongo-java-driver" v) ++ ".pom")
          (pyReplace tplM "$VERSION" v)) ((fileRootOf root "/org/mongodb/" "mongo-java-driver" v) ++ ".jar")
        = env.sha1hex cM1 ++ "  " ++ ((fileRootOf root "/org/mongodb/" "mongo-java-driver" v) ++ ".jar") ++ "\n" from by
      unfold sha1sumStdout
      rw [read_write_ne _ _ (ne_of_last_ne (by decide) (by decide) (by decide)),
        hfscMjar]]
    rw [sha_extract (hsha cM1)]
  have hshaB : F2.read ((fileRootOf root "/org/bson/" "bson" v) ++ ".jar.sha1") = some (env.sha1hex cB1) := by
    rw [hF2,
      goWrites_read_sha env root v "/org/bson/" "bson" tplB fsc2
        (by decide) (by decide) hver]
    rw [show sha1sumStdout env (fsc2.write ((fileRootOf root "/org/bson/" "bson" v) ++ ".pom")
          (pyReplace tplB "$VERSION" v)) ((fileRootOf root "/org/bson/" "bson" v) ++ ".jar")
        = env.sha1hex cB1 ++ "  " ++ ((fileRootOf root "/org/bson/" "bson" v) ++ ".jar") ++ "\n" from by
      unfold sha1sumStdout
      rw [read_write_ne _ _ (ne_of_last_ne (by decide) (by decide) (by decide)),
        hfscBjar]]
    rw [sha_extract (hsha cB1)]
  have hparentM : (ospSplit (versionDir root "/org/mongodb/" "mongo-java-driver" v)).1 = root ++ "/org/mongodb/" ++ "mongo-java-driver" := by
    rw [ospSplit_versionDir (by decide) (by decide) hver]
  have hparentMne : (ospSplit (versionDir root "/org/mongodb/" "mongo-java-driver" v)).1 ≠ "" := by
    rw [hparentM]
    intro h0
    exact strAppend_data_ne_nil (by decide) (congrArg String.data h0)
  have hparentB : (ospSplit (versionDir root "/org/bson/" "bson" v)).1 = root ++ "/org/bson/" ++ "bson" := by
    rw [ospSplit_versionDir (by decide) (by decide) hver]
  have hparentBne : (ospSplit (versionDir root "/org/bson/" "bson" v)).1 ≠ "" := by
    rw [hparentB]
    intro h0
    exact strAppend_data_ne_nil (by decide) (congrArg String.data h0)
  have hnew2none : ∀ d ∈ new2, childName ((ospSplit (versionDir root "/org/mongodb/" "mongo-java-driver" v)).1) d = none := by
    intro d hd
    cases hcn : childName ((ospSplit (versionDir root "/org/mongodb/" "mongo-java-driver" v)).1) d with
    | none => rfl
    | some e =>
      exfalso
      have hp1 : (root ++ "/org/mongodb/").data <+: d.data := by
        refine List.IsPrefix.trans ?_ (childName_some_pref hcn)
        refine List.IsPrefix.trans ?_ (dirPref_pref ((ospSplit (versionDir root "/org/mongodb/" "mongo-java-driver" v)).1))
        rw [hparentM]
        exact leads_self_append (root ++ "/org/mongodb/") "mongo-java-driver"
      exact not_both_leads (hp1.trans (hednew2 d hd))
        (leads_versionDir root "/org/bson/" "bson" v)
  have hdirsM : F2.dirs = new2 ++ fsc1.dirs := by
    rw [hF2d, hfsc2d, hedd2, hF1d]
  have hmvM : metadataVersions F2 ((ospSplit (versionDir root "/org/mongodb/" "mongo-java-driver" v)).1)
      = metadataVersions ((fsc1.write ((fileRootOf root "/org/mongodb/" "mongo-java-driver" v) ++ ".pom") (pyReplace tplM "$VERSION" v)).write
          ((fileRootOf root "/org/mongodb/" "mongo-java-driver" v) ++ ".jar.sha1")
          ((pySplit (sha1sumStdout env (fsc1.write ((fileRootOf root "/org/mongodb/" "mongo-java-driver" v) ++ ".pom")
              (pyReplace tplM "$VERSION" v)) ((fileRootOf root "/org/mongodb/" "mongo-java-driver" v) ++ ".jar")) ' ').headD "")) ((ospSplit (versionDir root "/org/mongodb/" "mongo-java-driver" v)).1) :=
    (metadataVersions_shift hparentMne new2 hdirsM hnew2none).trans
      (metadataVersions_congr_dirs hparentMne rfl)
  have hmetaM : F2.read (ospJoin ((ospSplit (versionDir root "/org/mongodb/" "mongo-java-driver" v)).1) "maven-metadata.xml")
      = some (env.pretty (build_metadata_xml env F2 ((ospSplit (versionDir root "/org/mongodb/" "mongo-java-driver" v)).1)
          "mongo-java-driver")) := by
    rw [hgo2M (ospJoin ((ospSplit (versionDir root "/org/mongodb/" "mongo-java-driver" v)).1) "maven-metadata.xml")
        (leads_metaPath (by decide) (by decide) hver), hF1]
    simp only [goWrites]
    rw [read_write_self]
    rw [build_metadata_xml_eq, build_metadata_xml_eq]
    rw [← hmvM]
  have hmvB : metadataVersions F2 ((ospSplit (versionDir root "/org/bson/" "bson" v)).1)
      = metadataVersions ((fsc2.write ((fileRootOf root "/org/bson/" "bson" v) ++ ".pom")
          (pyReplace tplB "$VERSION" v)).write ((fileRootOf root "/org/bson/" "bson" v) ++ ".jar.sha1")
          ((pySplit (sha1sumStdout env (fsc2.write ((fileRootOf root "/org/bson/" "bson" v) ++ ".pom")
              (pyReplace tplB "$VERSION" v)) ((fileRootOf root "/org/bson/" "bson" v) ++ ".jar")) ' ').headD ""))
        ((ospSplit (versionDir root "/org/bson/" "bson" v)).1) :=
    (metadataVersions_congr_dirs hparentBne hF2d).trans
      (metadataVersions_congr_dirs hparentBne rfl)
  have hmetaB : F2.read (ospJoin ((ospSplit (versionDir root "/org/bson/" "bson" v)).1) "maven-metadata.xml")
      = some (env.pretty (build_metadata_xml env F2 ((ospSplit (versionDir root "/org/bson/" "bson" v)).1)
          "bson")) := by
    conv_lhs => rw [hF2]
    simp only [goWrites]
    rw [read_write_self]
    rw [build_metadata_xml_eq, build_metadata_xml_eq]
    rw [← hmvB]
  have hexdM : pathExists F2 (versionDir root "/org/mongodb/" "mongo-java-driver" v) = true := by
    cases hpe : pathExists fs (versionDir root "/org/mongodb/" "mongo-java-driver" v) with
    | true =>
      have hm1 := go_mono env root v "/org/mongodb/" "mongo" "mongo-java-driver" fs
      rw [hg1] at hm1
      have hp1 : pathExists F1 (versionDir root "/org/mongodb/" "mongo-java-driver" v) = true :=
        pathExists_mono hm1.1 hm1.2 hpe
      have hm2 := go_mono env root v "/org/bson/" "bson" "bson" F1
      rw [hg2] at hm2
      exact pathExists_mono hm2.1 hm2.2 hp1
    | false =>
      have e1' : makedirs fs (versionDir root "/org/mongodb/" "mongo-java-driver" v) = .ok fsd1 := by
        rw [← ensureDir_of_not_exists hpe]
        exact e1
      unfold makedirs at e1'
      have hmem := makedirsAux_ok_mem hdotM e1'
      have hmemF1 : (versionDir root "/org/mongodb/" "mongo-java-driver" v) ∈ F1.dirs := by
        rw [hF1d, hfsc1d]
        exact hmem
      have hm2 := go_mono env root v "/org/bson/" "bson" "bson" F1
      rw [hg2] at hm2
      exact pathExists_of_dirMem (hm2.1 _ hmemF1)
  have hexdB : pathExists F2 (versionDir root "/org/bson/" "bson" v) = true := by
    cases hpe : pathExists F1 (versionDir root "/org/bson/" "bson" v) with
    | true =>
      have hm2 := go_mono env root v "/org/bson/" "bson" "bson" F1
      rw [hg2] at hm2
      exact pathExists_mono hm2.1 hm2.2 hpe
    | false =>
      have e2' : makedirs F1 (versionDir root "/org/bson/" "bson" v) = .ok fsd2 := by
        rw [← ensureDir_of_not_exists hpe]
        exact e2
      unfold makedirs at e2'
      have hmem := makedirsAux_ok_mem hdotB e2'
      have hmem2 : (versionDir root "/org/bson/" "bson" v) ∈ F2.dirs := by
        rw [hF2d, hfsc2d]
        exact hmem
      exact pathExists_of_dirMem hmem2
  constructor
  · exact go_noop hexdM hsM1F hsM2F hsM3F hdM1 hdM2 hdM3 htplMF hsha hpomM
      hshaM hmetaM
  · exact go_noop hexdB hsB1F hsB2F hsB3F hdB1 hdB2 hdB3 htplBF hsha hpomB
      hshaB hmetaB

/-! Claim theorems. -/

/-- C8: invoked with no version argument (`argv` holds only the program
name), `runMain` prints the three usage lines and stops with exit status 0,
without invoking the build tool and without touching the filesystem. -/
theorem c8_missing_version_usage (env : Env) (fs : FS) (a0 : String) :
    runMain env [a0] fs
      = { exitCode := 0, printed := usageLines, fs := fs, buildInvoked := false } := rfl

/-- C3: when the captured build output lacks the substring SUCCESSFUL, the
publisher prints the captured standard output and the `None` placeholder for
the unpiped standard error, stops with exit status 1, and writes nothing:
the resulting filesystem is the initial one. -/
theorem c3_build_failure (env : Env) (argv : List String) (fs : FS)
    (hlen : argv.length ≠ 1)
    (hfail : strContains env.antAlljarsStdout "SUCCESSFUL" = false) :
    runMain env argv fs
      = { exitCode := 1, printed := [env.antAlljarsStdout, "None"], fs := fs,
          buildInvoked := true } := by
  simp only [runMain]
  rw [if_neg hlen, if_pos hfail]
  rfl

/-- C3 witness: with the concrete build output BUILD FAILED the publisher
exits with status 1, leaves the filesystem untouched and prints the captured
streams. -/
theorem c3_build_failure_witness :
    runMain envFail ["mavenPush.py", "3.2.0"] fs0
      = { exitCode := 1, printed := ["BUILD FAILED", "None"], fs := fs0,
          buildInvoked := true } :=
  c3_build_failure envFail ["mavenPush.py", "3.2.0"] fs0 (by decide) (by decide)

/-- C9: a second command-line argument is passed through
`os.path.expanduser` before use, a path of the form `~/rest` expanding to the
invoking user's home directory followed by `/rest`; with no second argument
the root is the fixed string `/ebs/maven/` and no expansion is applied. -/
theorem c9_destination_root (env : Env) (a0 v d : String) (t : List String)
    (s : String) :
    rootOf env (a0 :: v :: d :: t) = expanduser env d ∧
    rootOf env [a0, v] = "/ebs/maven/" ∧
    expanduser env ⟨'~' :: '/' :: s.data⟩ = ⟨env.home.data ++ '/' :: s.data⟩ := by
  refine ⟨?_, ?_, ?_⟩
  · unfold rootOf
    rw [if_pos (by simp)]
    rfl
  · rfl
  · simp only [expanduser]
    rw [if_pos (show (String.mk ('~' :: '/' :: s.data)).data.head? = some '~' from rfl)]
    rw [show ((String.mk ('~' :: '/' :: s.data)).data.drop 1).findIdx?
        (fun c => c == '/') = some 0 from by
      show (('/' :: s.data).findIdx? (fun c => c == '/')) = some 0
      rw [List.findIdx?_cons, if_pos (by decide)]]
    dsimp only
    rw [if_pos rfl]
    dsimp only
    rw [show (String.mk ('~' :: '/' :: s.data)).data.drop (0 + 1) = '/' :: s.data
      from rfl]
    rw [if_neg (by rw [isEmpty_append_cons]; exact Bool.noConfusion)]

/-- C6: the version entries of the generated metadata document are exactly
the names of the immediate subdirectories of the listed directory at the
moment of generation; plain files are omitted and the document is a function
of the directory layout alone, never of previously written file contents
(so it is rebuilt, not merged).  The concrete conjuncts exercise a directory
holding subdirectories 1.0, 1.1, 2.0 plus two plain files, one of them a
stale metadata document. -/
theorem c6_metadata_versions :
    (∀ (env : Env) (fs1 fs2 : FS) (p aid : String), fs1.dirs = fs2.dirs →
      fs1.files.map Prod.fst = fs2.files.map Prod.fst →
      build_metadata_xml env fs1 p aid = build_metadata_xml env fs2 p aid) ∧
    metadataVersions fsC "/g" = ["1.0", "1.1", "2.0"] ∧
    build_metadata_xml env0 fsC "/g" "mjd"
      = "<metadata><groupId>org.g</groupId><artifactId>mjd</artifactId><versioning><versions><version>1.0</version><version>1.1</version><version>2.0</version></versions><lastUpdated>0</lastUpdated></versioning></metadata>" := by
  refine ⟨?_, by decide, by decide⟩
  intro env fs1 fs2 p aid hd hf
  have h1 : metadataVersions fs1 p = metadataVersions fs2 p := by
    unfold metadataVersions
    rw [listdir_congr hd hf]
    apply List.filter_congr
    intro e _
    rw [isdir_congr hd]
  rw [build_metadata_xml_eq, build_metadata_xml_eq, h1]

/-- C6 witness: two states with the same directories and file paths but
different stale metadata contents generate the same document. -/
theorem c6_metadata_versions_witness :
    build_metadata_xml env0 fsA "/g" "x" = build_metadata_xml env0 fsB "/g" "x" :=
  c6_metadata_versions.1 env0 fsA fsB "/g" "x" rfl rfl

/-- C2 counterexample: running the publisher concretely, the metadata
document generated for the artifact with group path /org/mongodb/ carries the
groupId element `org.mongo-java-driver` — the leaf of the artifact directory
— and not `org.mongodb`, the leaf of the group path, refuting the claim at
this input. -/
theorem c2_groupid_counterexample :
    (runMain env0 ["mavenPush.py", "3.2.0"] fs0).fs.read
        "/ebs/maven//org/mongodb/mongo-java-driver/maven-metadata.xml"
      = some "<metadata><groupId>org.mongo-java-driver</groupId><artifactId>mongo-java-driver</artifactId><versioning><versions><version>3.2.0</version></versions><lastUpdated>0</lastUpdated></versioning></metadata>"
    ∧ strContains "<metadata><groupId>org.mongo-java-driver</groupId><artifactId>mongo-java-driver</artifactId><versioning><versions><version>3.2.0</version></versions><lastUpdated>0</lastUpdated></versioning></metadata>"
        "<groupId>org.mongodb</groupId>" = false
    ∧ strContains "<metadata><groupId>org.mongo-java-driver</groupId><artifactId>mongo-java-driver</artifactId><versioning><versions><version>3.2.0</version></versions><lastUpdated>0</lastUpdated></versioning></metadata>"
        "<groupId>org.mongo-java-driver</groupId>" = true := by
  refine ⟨by decide, by decide, by decide⟩

/-- C2 (amended): the groupId element of the generated metadata document is
`org.` followed by the leaf of the directory whose children are listed — the
artifact directory, i.e. the artifact's long name — and the artifactId
element is the long name; the group-path leaf enters the groupId only when it
coincides with the long name. -/
theorem c2_amended_groupid {env : Env} {root version pkg short long : String}
    {fs fs' : FS}
    (hlong : long.data ≠ []) (hlongs : '/' ∉ long.data)
    (hpkg : pkg.data.getLast? = some '/') (hver : '/' ∉ version.data)
    (h : go env root version pkg short long fs = .ok fs') :
    ∃ vs : List String,
      fs'.read (root ++ pkg ++ long ++ "/" ++ "maven-metadata.xml")
        = some (env.pretty ("<metadata>" ++ "<groupId>org." ++ long ++ "</groupId>"
            ++ "<artifactId>" ++ long ++ "</artifactId>" ++ "<versioning><versions>"
            ++ versionTags vs ++ "</versions>" ++ "<lastUpdated>"
            ++ toString env.nowMs ++ "</lastUpdated>"
            ++ "</versioning></metadata>")) := by
  have hlast : long.data.getLast? ≠ some '/' :=
    fun hcon => hlongs (getLast?_mem hcon)
  have hpkgne : pkg.data ≠ [] := by
    intro h0
    rw [List.getLast?_eq_none_iff.mpr h0] at hpkg
    exact Option.noConfusion hpkg
  obtain ⟨fsd, fsc, tpl, h1, h2, h3, h4⟩ := go_ok_elim h
  subst h4
  refine ⟨metadataVersions ((fsc.write (fileRootOf root pkg long version ++ ".pom")
      (pyReplace tpl "$VERSION" version)).write
      (fileRootOf root pkg long version ++ ".jar.sha1")
      ((pySplit (sha1sumStdout env (fsc.write (fileRootOf root pkg long version
          ++ ".pom") (pyReplace tpl "$VERSION" version))
        (fileRootOf root pkg long version ++ ".jar")) ' ').headD ""))
      (root ++ pkg ++ long), ?_⟩
  rw [goWrites_read_meta env root version pkg long tpl fsc hlong hlast hver]
  rw [build_metadata_xml_eq]
  rw [ospSplit_versionDir hlong hlast hver]
  dsimp only
  rw [ospSplit_snd_of_ends_slash (by rw [getLast?_strAppend hpkgne]; exact hpkg)
    hlong hlongs]

/-- C2 amended witness: the concrete run writes a metadata document whose
groupId is org. followed by the long name. -/
theorem c2_amended_groupid_witness :
    ∃ vs : List String,
      (errState (go env0 "/ebs/maven/" "3.2.0" "/org/mongodb/" "mongo"
          "mongo-java-driver" fs0)).read
          ("/ebs/maven/" ++ "/org/mongodb/" ++ "mongo-java-driver" ++ "/"
            ++ "maven-metadata.xml")
        = some (env0.pretty ("<metadata>" ++ "<groupId>org." ++ "mongo-java-driver"
            ++ "</groupId>" ++ "<artifactId>" ++ "mongo-java-driver"
            ++ "</artifactId>" ++ "<versioning><versions>"
            ++ versionTags vs ++ "</versions>" ++ "<lastUpdated>"
            ++ toString env0.nowMs ++ "</lastUpdated>"
            ++ "</versioning></metadata>")) := by
  exact c2_amended_groupid (by decide) (by decide) (by decide) (by decide)
    (show go env0 "/ebs/maven/" "3.2.0" "/org/mongodb/" "mongo"
        "mongo-java-driver" fs0
      = .ok (errState (go env0 "/ebs/maven/" "3.2.0" "/org/mongodb/" "mongo"
          "mongo-java-driver" fs0)) from by decide)

/-- C4: when the template decomposes as token-free segments interleaved with
the placeholder token, the descriptor written to the version directory under
the name stem.pom is the same segments interleaved with the literal version
string: substituted at every placeholder position, unchanged everywhere else;
and the descriptor's path ends in the stem followed by .pom. -/
theorem c4_descriptor_substitution {env : Env}
    {root version pkg short long tpl : String} {fs fs' : FS}
    {parts : List (List Char)}
    (hlong : long.data ≠ []) (hlongs : '/' ∉ long.data) (hver : '/' ∉ version.data)
    (htpl : fs.read ("maven-" ++ short ++ ".xml") = some tpl)
    (hne : parts ≠ []) (hfree : ∀ p ∈ parts, '$' ∉ p)
    (ht : tpl.data = List.intercalate ("$VERSION" : String).data parts)
    (h : go env root version pkg short long fs = .ok fs') :
    fs'.read (fileRootOf root pkg long version ++ ".pom")
        = some ⟨List.intercalate version.data parts⟩
    ∧ ∃ a : String, fileRootOf root pkg long version ++ ".pom"
        = a ++ (fileStem long version ++ ".pom") := by
  have hlast : long.data.getLast? ≠ some '/' := fun hc => hlongs (getLast?_mem hc)
  obtain ⟨fsd, fsc, tpl', h1, h2, h3, h4⟩ := go_ok_elim h
  subst h4
  have hfsd : fsd.files = fs.files := by
    have h5 := (ensureDir_state fs (versionDir root pkg long version)).1
    rw [h1] at h5
    exact h5
  have hfsdread : ∀ q, fsd.read q = fs.read q := fun q => by
    show List.lookup q fsd.files = List.lookup q fs.files
    rw [hfsd]
  have hT : fsc.read ("maven-" ++ short ++ ".xml")
      = fs.read ("maven-" ++ short ++ ".xml") := by
    have h6 := (copyFlavors_state short (fileRootOf root pkg long version)
      flavors fsd).2
    rw [h2] at h6
    by_cases hc : fsc.read ("maven-" ++ short ++ ".xml")
        = fsd.read ("maven-" ++ short ++ ".xml")
    · rw [hc, hfsdread]
    · exfalso
      obtain ⟨x, _, hxq⟩ := h6 _ hc
      exact ne_of_last_ne (by decide) (by decide) (by decide) hxq
  have htpl' : tpl' = tpl := by
    rw [hT, htpl] at h3
    exact (Option.some.inj h3).symm
  subst htpl'
  constructor
  · rw [goWrites_read_pom env root version pkg long tpl' fsc hlong hlast hver]
    rw [pyReplace_eq_intercalate hne hfree ht]
  · refine ⟨versionDir root pkg long version ++ "/", ?_⟩
    rw [strEq_iff]
    simp [fileRootOf, String.data_append, List.append_assoc]

/-- C4 witness: publishing version 3.2.0 with the template
`<project><version>$VERSION</version></project>` writes the descriptor
`<project><version>3.2.0</version></project>`, at a path ending in
`mongo-java-driver-3.2.0.pom`. -/
theorem c4_descriptor_substitution_witness :
    (errState (go env0 "/ebs/maven/" "3.2.0" "/org/mongodb/" "mongo"
        "mongo-java-driver" fs0)).read
        (fileRootOf "/ebs/maven/" "/org/mongodb/" "mongo-java-driver" "3.2.0"
          ++ ".pom")
      = some "<project><version>3.2.0</version></project>"
    ∧ ∃ a : String,
        fileRootOf "/ebs/maven/" "/org/mongodb/" "mongo-java-driver" "3.2.0"
            ++ ".pom"
          = a ++ "mongo-java-driver-3.2.0.pom" := by
  obtain ⟨h1, a, h2⟩ := @c4_descriptor_substitution env0 "/ebs/maven/" "3.2.0"
    "/org/mongodb/" "mongo" "mongo-java-driver"
    "<project><version>$VERSION</version></project>" fs0
    (errState (go env0 "/ebs/maven/" "3.2.0" "/org/mongodb/" "mongo"
      "mongo-java-driver" fs0))
    [("<project><version>" : String).data, ("</version></project>" : String).data]
    (by decide) (by decide) (by decide) (by decide) (by decide) (by decide)
    (by decide) (by decide)
  constructor
  · exact h1.trans (by decide)
  · refine ⟨a, ?_⟩
    rw [show ("mongo-java-driver-3.2.0.pom" : String)
        = fileStem "mongo-java-driver" "3.2.0" ++ ".pom" from by decide]
    exact h2

/-- C5: the file written beside the primary jar under the name stem.jar.sha1
holds exactly the digest of the copied primary artifact's bytes at its
destination path — the digest function applied to the destination file's
contents, with the trailing filename that sha1sum appends split away —
provided the digest text itself holds no space. -/
theorem c5_checksum {env : Env} {root version pkg short long : String}
    {fs fs' : FS}
    (hsha : ∀ s : String, ' ' ∉ (env.sha1hex s).data)
    (hlong : long.data ≠ []) (hlongs : '/' ∉ long.data) (hver : '/' ∉ version.data)
    (h : go env root version pkg short long fs = .ok fs') :
    ∃ c : String,
      fs'.read (fileRootOf root pkg long version ++ ".jar") = some c ∧
      fs'.read (fileRootOf root pkg long version ++ ".jar.sha1")
        = some (env.sha1hex c) := by
  have hlast : long.data.getLast? ≠ some '/' := fun hc => hlongs (getLast?_mem hc)
  obtain ⟨fsd, fsc, tpl, h1, h2, h3, h4⟩ := go_ok_elim h
  subst h4
  obtain ⟨c1, c2, c3, hr1, hr2, hr3, hfsc⟩ := copyFlavors_ok_elim h2
  have hjfsc : fsc.read (fileRootOf root pkg long version ++ ".jar") = some c1 := by
    rw [hfsc, ← strAppend_empty_mid (fileRootOf root pkg long version) ".jar"]
    exact copyChain_read_first fsd (fileRootOf root pkg long version) c1 c2 c3
  have hne_pom_jar : fileRootOf root pkg long version ++ ".jar"
      ≠ fileRootOf root pkg long version ++ ".pom" :=
    ne_of_last_ne (by decide) (by decide) (by decide)
  refine ⟨c1, ?_, ?_⟩
  · rw [goWrites_read_other env root version pkg long tpl fsc
      hne_pom_jar
      (ne_of_last_ne (by decide) (by decide) (by decide))
      (by
        rw [metaPath_eq hlong hlast hver]
        exact ne_of_last_ne (by decide) (by decide) (by decide))]
    exact hjfsc
  · rw [goWrites_read_sha env root version pkg long tpl fsc hlong hlast hver]
    have hW1jar : (fsc.write (fileRootOf root pkg long version ++ ".pom")
          (pyReplace tpl "$VERSION" version)).read
          (fileRootOf root pkg long version ++ ".jar") = some c1 := by
      rw [read_write_ne _ _ hne_pom_jar]
      exact hjfsc
    rw [show sha1sumStdout env
        (fsc.write (fileRootOf root pkg long version ++ ".pom")
          (pyReplace tpl "$VERSION" version))
        (fileRootOf root pkg long version ++ ".jar")
      = env.sha1hex c1 ++ "  " ++ (fileRootOf root pkg long version ++ ".jar")
          ++ "\n" from by
        unfold sha1sumStdout
        rw [hW1jar]]
    rw [sha_extract (hsha c1)]

/-- C5 witness: on the concrete run, the jar holds some bytes and the sibling
sha1 file holds exactly the digest of those bytes. -/
theorem c5_checksum_witness :
    ∃ c : String,
      (errState (go env0 "/ebs/maven/" "3.2.0" "/org/mongodb/" "mongo"
          "mongo-java-driver" fs0)).read
          (fileRootOf "/ebs/maven/" "/org/mongodb/" "mongo-java-driver" "3.2.0"
            ++ ".jar")
        = some c ∧
      (errState (go env0 "/ebs/maven/" "3.2.0" "/org/mongodb/" "mongo"
          "mongo-java-driver" fs0)).read
          (fileRootOf "/ebs/maven/" "/org/mongodb/" "mongo-java-driver" "3.2.0"
            ++ ".jar.sha1")
        = some (env0.sha1hex c) :=
  @c5_checksum env0 "/ebs/maven/" "3.2.0" "/org/mongodb/" "mongo"
    "mongo-java-driver" fs0
    (errState (go env0 "/ebs/maven/" "3.2.0" "/org/mongodb/" "mongo"
      "mongo-java-driver" fs0))
    (fun s => show ' ' ∉ ("da39a3ee5e6b4b0d3255bfef95601890afd80709" : String).data
      from by decide)
    (by decide) (by decide) (by decide) (by decide)

/-- C7: the version directory is the concatenation
root + groupPath + longName + "/" + version and the file stem is
longName + "-" + version; ensuring it is a no-op when the path already
exists, succeeds creating the whole chain when the destination root is
absent, and on a successful run the created directory is present in the
final state. -/
theorem c7_directory_resolution (env : Env) (root version pkg short long : String)
    (fs fs' : FS)
    (hex : pathExists fs (versionDir root pkg long version) = false)
    (hlast : (versionDir root pkg long version).data.getLast? ≠ some '/')
    (hfiles : ∀ q : String, q.data <+: (versionDir root pkg long version).data →
      fs.read q = none)
    (hdot : ∀ q : String, q.data <+: (versionDir root pkg long version).data →
      (ospSplit q).2 ≠ ".")
    (hgo : go env root version pkg short long fs = .ok fs') :
    versionDir root pkg long version = root ++ pkg ++ long ++ "/" ++ version
    ∧ fileStem long version = long ++ "-" ++ version
    ∧ (∀ fs2 : FS, pathExists fs2 (versionDir root pkg long version) = true →
        ensureDir fs2 (versionDir root pkg long version) = .ok fs2)
    ∧ (∃ new, ensureDir fs (versionDir root pkg long version)
          = .ok { dirs := new ++ fs.dirs, files := fs.files }
        ∧ versionDir root pkg long version ∈ new)
    ∧ versionDir root pkg long version ∈ fs'.dirs := by
  obtain ⟨new, hmk, hmem, hpre⟩ := makedirs_ok_exists hex hlast hfiles hdot
  have hed : ensureDir fs (versionDir root pkg long version)
      = .ok { dirs := new ++ fs.dirs, files := fs.files } := by
    rw [ensureDir_of_not_exists hex, hmk]
  refine ⟨rfl, rfl, fun fs2 h2 => ensureDir_of_exists h2, ⟨new, hed, hmem⟩, ?_⟩
  obtain ⟨fsd, fsc, tpl, h1, h2, h3, h4⟩ := go_ok_elim hgo
  subst h4
  show versionDir root pkg long version
    ∈ (goWrites env root version pkg long tpl fsc).dirs
  rw [(goWrites_state env root version pkg long tpl fsc).1]
  have hcd : fsc.dirs = fsd.dirs := by
    have h5 := (copyFlavors_state short (fileRootOf root pkg long version)
      flavors fsd).1
    rw [h2] at h5
    exact h5
  rw [hcd]
  have hfsd : fsd = { dirs := new ++ fs.dirs, files := fs.files } :=
    Except.ok.inj (h1.symm.trans hed)
  rw [hfsd]
  exact List.mem_append.mpr (Or.inl hmem)

/-- C7 witness: publishing 3.2.0 into an absent /ebs/maven/ tree computes the
documented directory and stem, creates the nested path without error, would
skip creation were the directory present, and leaves the directory in the
final state. -/
theorem c7_directory_resolution_witness :
    versionDir "/ebs/maven/" "/org/mongodb/" "mongo-java-driver" "3.2.0"
      = "/ebs/maven/" ++ "/org/mongodb/" ++ "mongo-java-driver" ++ "/" ++ "3.2.0"
    ∧ fileStem "mongo-java-driver" "3.2.0" = "mongo-java-driver" ++ "-" ++ "3.2.0"
    ∧ (∀ fs2 : FS, pathExists fs2 (versionDir "/ebs/maven/" "/org/mongodb/"
          "mongo-java-driver" "3.2.0") = true →
        ensureDir fs2 (versionDir "/ebs/maven/" "/org/mongodb/"
          "mongo-java-driver" "3.2.0") = .ok fs2)
    ∧ (∃ new, ensureDir fs0 (versionDir "/ebs/maven/" "/org/mongodb/"
          "mongo-java-driver" "3.2.0")
          = .ok { dirs := new ++ fs0.dirs, files := fs0.files }
        ∧ versionDir "/ebs/maven/" "/org/mongodb/" "mongo-java-driver" "3.2.0"
            ∈ new)
    ∧ versionDir "/ebs/maven/" "/org/mongodb/" "mongo-java-driver" "3.2.0"
        ∈ (errState (go env0 "/ebs/maven/" "3.2.0" "/org/mongodb/" "mongo"
            "mongo-java-driver" fs0)).dirs := by
  exact c7_directory_resolution env0 "/ebs/maven/" "3.2.0" "/org/mongodb/"
    "mongo" "mongo-java-driver" fs0
    (errState (go env0 "/ebs/maven/" "3.2.0" "/org/mongodb/" "mongo"
      "mongo-java-driver" fs0))
    (by decide) (by decide)
    (by
      intro q hq
      cases hr : fs0.read q with
      | none => rfl
      | some c =>
        exfalso
        have hk := lookup_some_mem_keys hr
        have hk2 : q ∈ ["mongo.jar", "mongo-sources.jar", "mongo-javadoc.jar",
            "bson.jar", "bson-sources.jar", "bson-javadoc.jar",
            "maven-mongo.xml", "maven-bson.xml"] := hk
        simp only [List.mem_cons, List.not_mem_nil, or_false] at hk2
        rcases hk2 with rfl | rfl | rfl | rfl | rfl | rfl | rfl | rfl <;>
          exact absurd hq (by decide))
    (by
      intro q hq hcon
      rcases split_tail_dot hq hcon with hh | hh <;> exact absurd hh (by decide))
    (by decide)

/-- C10: with a usable version argument and a successful build the publisher
handles exactly two artifacts in a fixed order — mongo-java-driver under
/org/mongodb/ first, bson under /org/bson/ second.  A fatal error in the
first artifact stops the run with exit status 1 at the failure state, and
that state agrees with the initial one on every path under the second
artifact's group directory: no file there changed and no directory was
created there. -/
theorem c10_two_artifacts (env : Env) (argv : List String) (fs : FS)
    (msg : String) (fsE fs1 fs2 : FS)
    (hlen : argv.length ≠ 1)
    (hok : strContains env.antAlljarsStdout "SUCCESSFUL" = true)
    (hver : '/' ∉ (versionOf argv).data) :
    (go env (rootOf env argv) (versionOf argv) "/org/mongodb/" "mongo"
        "mongo-java-driver" fs = .error (msg, fsE) →
      runMain env argv fs
        = { exitCode := 1, printed := [], fs := fsE, buildInvoked := true }
      ∧ (∀ q : String, (rootOf env argv ++ "/org/bson/").data <+: q.data →
          fsE.read q = fs.read q)
      ∧ (∀ d ∈ fsE.dirs, d ∉ fs.dirs →
          ¬ (rootOf env argv ++ "/org/bson/").data <+: d.data))
    ∧ (go env (rootOf env argv) (versionOf argv) "/org/mongodb/" "mongo"
        "mongo-java-driver" fs = .ok fs1 →
      go env (rootOf env argv) (versionOf argv) "/org/bson/" "bson" "bson" fs1
        = .ok fs2 →
      runMain env argv fs
        = { exitCode := 0, printed := [], fs := fs2, buildInvoked := true }) := by
  constructor
  · intro hgo1
    obtain ⟨hread, new, hdirs, hnew⟩ := go_frame env (rootOf env argv)
      (versionOf argv) "/org/mongodb/" "mongo" "mongo-java-driver" fs
      (by decide) (by decide) hver
    rw [hgo1] at hread hdirs
    dsimp only [errState] at hread hdirs
    refine ⟨?_, ?_, ?_⟩
    · simp only [runMain]
      rw [if_neg hlen,
        if_neg (fun hc => Bool.noConfusion (hok.symm.trans hc)), hgo1]
    · intro q hq
      by_cases hc : fsE.read q = fs.read q
      · exact hc
      · exact absurd hq (fun hb => not_both_leads (hread q hc) hb)
    · intro d hd hnd hb
      have hdn : d ∈ new := by
        rw [hdirs] at hd
        rcases List.mem_append.mp hd with hcase | hcase
        · exact hcase
        · exact absurd hcase hnd
      exact not_both_leads (leads_versionDir (rootOf env argv) "/org/mongodb/"
        "mongo-java-driver" (versionOf argv)) (hb.trans (hnew d hdn))
  · intro hgo1 hgo2
    simp only [runMain]
    rw [if_neg hlen,
      if_neg (fun hc => Bool.noConfusion (hok.symm.trans hc)), hgo1]
    dsimp only
    rw [hgo2]

/-- C10 witness: with the first artifact's sources jar missing, the run stops
with exit status 1 at the failure state, and every path under the bson group
directory — files and directories alike — is untouched. -/
theorem c10_two_artifacts_witness :
    runMain env0 ["mavenPush.py", "3.2.0"] fsM
      = { exitCode := 1, printed := [],
          fs := errState (go env0 "/ebs/maven/" "3.2.0" "/org/mongodb/" "mongo"
            "mongo-java-driver" fsM),
          buildInvoked := true }
    ∧ (∀ q : String, (("/ebs/maven/" : String) ++ "/org/bson/").data <+: q.data →
        (errState (go env0 "/ebs/maven/" "3.2.0" "/org/mongodb/" "mongo"
          "mongo-java-driver" fsM)).read q = fsM.read q)
    ∧ (∀ d ∈ (errState (go env0 "/ebs/maven/" "3.2.0" "/org/mongodb/" "mongo"
        "mongo-java-driver" fsM)).dirs, d ∉ fsM.dirs →
        ¬ (("/ebs/maven/" : String) ++ "/org/bson/").data <+: d.data) :=
  (c10_two_artifacts env0 ["mavenPush.py", "3.2.0"] fsM
    "copy2: no such file: mongo-sources.jar"
    (errState (go env0 "/ebs/maven/" "3.2.0" "/org/mongodb/" "mongo"
      "mongo-java-driver" fsM)) fsM fsM
    (by decide) (by decide) (by decide)).1 (by decide)

/-- C1: re-running the publisher with the same version over the state
produced by a first successful run is safe: the second run succeeds and the
resulting filesystem — every directory and every file, including each file
the second run rewrites — is literally identical to the first run's output.
-/
theorem c1_idempotent (env : Env) (argv : List String) (fs : FS)
    (hlen : argv.length ≠ 1)
    (hbuild : strContains env.antAlljarsStdout "SUCCESSFUL" = true)
    (hver : '/' ∉ (versionOf argv).data)
    (hsha : ∀ s : String, ' ' ∉ (env.sha1hex s).data)
    (hdotM : ∀ q : String, q.data <+: (versionDir (rootOf env argv)
        "/org/mongodb/" "mongo-java-driver" (versionOf argv)).data →
      (ospSplit q).2 ≠ ".")
    (hdotB : ∀ q : String, q.data <+: (versionDir (rootOf env argv)
        "/org/bson/" "bson" (versionOf argv)).data → (ospSplit q).2 ≠ ".")
    (hrun : (runMain env argv fs).exitCode = 0) :
    runMain env argv ((runMain env argv fs).fs)
      = { exitCode := 0, printed := [], fs := (runMain env argv fs).fs,
          buildInvoked := true } := by
  have hcond : ¬ (strContains env.antAlljarsStdout "SUCCESSFUL" = false) :=
    fun hc => Bool.noConfusion (hbuild.symm.trans hc)
  cases hg1 : go env (rootOf env argv) (versionOf argv) "/org/mongodb/" "mongo"
      "mongo-java-driver" fs with
  | error e =>
    exfalso
    obtain ⟨msg, fsE⟩ := e
    have hred : runMain env argv fs
        = { exitCode := 1, printed := [], fs := fsE, buildInvoked := true } := by
      simp only [runMain]
      rw [if_neg hlen, if_neg hcond, hg1]
    rw [hred] at hrun
    exact Nat.one_ne_zero hrun
  | ok F1 =>
    cases hg2 : go env (rootOf env argv) (versionOf argv) "/org/bson/" "bson"
        "bson" F1 with
    | error e =>
      exfalso
      obtain ⟨msg, fsE⟩ := e
      have hred : runMain env argv fs
          = { exitCode := 1, printed := [], fs := fsE, buildInvoked := true } := by
        simp only [runMain]
        rw [if_neg hlen, if_neg hcond, hg1]
        dsimp only
        rw [hg2]
      rw [hred] at hrun
      exact Nat.one_ne_zero hrun
    | ok F2 =>
      have hred : runMain env argv fs
          = { exitCode := 0, printed := [], fs := F2, buildInvoked := true } := by
        simp only [runMain]
        rw [if_neg hlen, if_neg hcond, hg1]
        dsimp only
        rw [hg2]
      have hfs2 : (runMain env argv fs).fs = F2 := by rw [hred]
      rw [hfs2]
      obtain ⟨hago1, hago2⟩ := runAgain_ok env (rootOf env argv) (versionOf argv)
        fs hver hsha hdotM hdotB hg1 hg2
      simp only [runMain]
      rw [if_neg hlen, if_neg hcond, hago1]
      dsimp only
      rw [hago2]

/-- C1 witness: running the concrete publish of version 3.2.0 twice from the
concrete initial state, the second run exits 0 and leaves the filesystem of
the first run byte-identical. -/
theorem c1_idempotent_witness :
    runMain env0 ["mavenPush.py", "3.2.0"]
        ((runMain env0 ["mavenPush.py", "3.2.0"] fs0).fs)
      = { exitCode := 0, printed := [],
          fs := (runMain env0 ["mavenPush.py", "3.2.0"] fs0).fs,
          buildInvoked := true } := by
  exact c1_idempotent env0 ["mavenPush.py", "3.2.0"] fs0 (by decide) (by decide)
    (by decide)
    (fun s => show ' ' ∉ ("da39a3ee5e6b4b0d3255bfef95601890afd80709" : String).data
      from by decide)
    (by
      intro q hq hcon
      rcases split_tail_dot hq hcon with hh | hh <;> exact absurd hh (by decide))
    (by
      intro q hq hcon
      rcases split_tail_dot hq hcon with hh | hh <;> exact absurd hh (by decide))
    (by decide)

end MavenPush
